import Mathlib

/-!
# AstraEditor Desktop: custom protocol handlers (`src-main/protocols.js`)

A shallow embedding of the resource-serving code of `src-main/protocols.js`:
the XML escaper and the error page, the header policy, the path resolver and
the three protocol handlers; of `normalizeRelativePath`, `writeCompressed` and
`writeRaw` of `scripts/prepare-extensions.mjs`; and of the update check of
`src-main/update-checker.js`.

Conventions of the embedding.

* A JavaScript string is a `List Char` (`Str`).  Every character the code
  inspects (`<`, `>`, `&`, the two quotes, `/`, `.`, `:`) is ASCII, so
  the difference between code points and UTF-16 code units never shows.
* A JavaScript exception is a value of `JsError`; a function that may throw
  returns `Except JsError _`.
* Library functions of the platform (`path.join`, `path.extname`,
  `String.prototype.startsWith`, ...) are modelled by Lean functions carrying
  the name of the library function; `path` is the POSIX flavour.
* The file system and the other ambient services are explicit parameters.
-/

namespace Protocols

/-- A JavaScript string. -/
abbrev Str := List Char

/-- The apostrophe character. -/
def apos : Char := Char.ofNat 39

/-- The double-quote character. -/
def dquote : Char := Char.ofNat 34

/-! ## `escapeXML` -/

/-- `String.prototype.replace(re, fn)` for a global regular expression `re`
that is a single character class: every character of the class is replaced by
what the callback returns for it, every other character is copied. -/
def replaceCharClass (cls : Char → Bool) (fn : Char → Str) : Str → Str
  | [] => []
  | c :: cs => (if cls c then fn c else [c]) ++ replaceCharClass cls fn cs

/-- The character class `[<>&'"]` of `escapeXML`. -/
def escapeXMLClass (c : Char) : Bool :=
  c == '<' || c == '>' || c == '&' || c == apos || c == dquote

/-- The callback of `escapeXML`: a `switch` without a default branch, so any
other character would yield `undefined`, which `replace` writes out as the
text `undefined`. -/
def escapeXMLCallback (c : Char) : Str :=
  if c = '<' then "&lt;".toList
  else if c = '>' then "&gt;".toList
  else if c = '&' then "&amp;".toList
  else if c = apos then "&apos;".toList
  else if c = dquote then "&quot;".toList
  else "undefined".toList

/-- `escapeXML` of `protocols.js`, applied to the string form of its argument. -/
def escapeXML (xml : Str) : Str :=
  replaceCharClass escapeXMLClass escapeXMLCallback xml

/-- The entity that stands for one character in escaped text: the five special
characters have one, every other character stands for itself. -/
def entityOf (c : Char) : Str :=
  if c = '<' then "&lt;".toList
  else if c = '>' then "&gt;".toList
  else if c = '&' then "&amp;".toList
  else if c = apos then "&apos;".toList
  else if c = dquote then "&quot;".toList
  else [c]

/-- The text that follows the ampersand in each of the five entities. -/
def entityTails : List Str :=
  ["lt;".toList, "gt;".toList, "amp;".toList, "apos;".toList, "quot;".toList]

/-! ## `createErrorPageHTML` -/

/-- The values that `createErrorPageHTML` reads from the process:
`packageJSON.version`, `process.versions.electron`, `getPlatform()`,
`process.arch` and `getDist()`, each in its string form. -/
structure VersionInfo where
  version : Str
  electron : Str
  platform : Str
  arch : Str
  dist : Str

/-- The template text before the error message. -/
def errorPageHead : Str :=
  "<!DOCTYPE html>\n<html lang=\"en\">\n  <head>\n    <meta charset=\"utf8\">\n".toList ++
  "    <meta name=\"viewport\" content=\"width=device-width, initial-scale=1\">\n".toList ++
  "    <title>Protocol handler error</title>\n  </head>\n".toList ++
  "  <body bgcolor=\"white\" text=\"black\">\n    <h1>Protocol handler error</h1>\n".toList ++
  "    <p>If you can see this page, ".toList ++
  "<a href=\"https://github.com/TurboWarp/desktop/issues\" ".toList ++
  "target=\"_blank\" rel=\"noreferrer\">please open a GitHub issue</a> or ".toList ++
  "<a href=\"mailto:contact@turbowarp.org\" target=\"_blank\" rel=\"noreferrer\">".toList ++
  "email us</a> with all the information below.</p>\n    <pre>".toList

/-- The HTML of the error page: `errorMessage` and `url` are the string forms of
the error and of `request.url`. -/
def createErrorPageHTML (info : VersionInfo) (url errorMessage : Str) : Str :=
  errorPageHead ++ escapeXML errorMessage ++
  "</pre>\n    <pre>URL: ".toList ++ escapeXML url ++
  "</pre>\n    <pre>Version ".toList ++ escapeXML info.version ++
  ", Electron ".toList ++ escapeXML info.electron ++
  ", Platform ".toList ++ escapeXML info.platform ++
  " ".toList ++ escapeXML info.arch ++
  ", Distribution ".toList ++ escapeXML info.dist ++
  "</pre>\n  </body>\n</html>".toList

/-! ## JavaScript values -/

/-- A thrown JavaScript error: the `name` of its class and its `message`. -/
structure JsError where
  name : Str
  message : Str
deriving DecidableEq

/-- Equality of two outcomes (a value or a thrown error) is decidable. -/
instance instDecidableEqExcept {ε α : Type} [DecidableEq ε] [DecidableEq α] :
    DecidableEq (Except ε α)
  | .ok a, .ok b => if h : a = b then isTrue (h ▸ rfl) else isFalse (fun e => h (Except.ok.inj e))
  | .error a, .error b =>
    if h : a = b then isTrue (h ▸ rfl) else isFalse (fun e => h (Except.error.inj e))
  | .ok _, .error _ => isFalse (fun e => Except.noConfusion e)
  | .error _, .ok _ => isFalse (fun e => Except.noConfusion e)

/-- The error made by `new Error(message)`. -/
def JsError.mk_error (message : Str) : JsError := ⟨"Error".toList, message⟩

/-- The error the URL constructor throws on an input it cannot parse. -/
def JsError.invalidURL : JsError := ⟨"TypeError".toList, "Invalid URL".toList⟩

/-- The string form of an error, `String(error)`: `name: message`, or the name
alone when the message is empty. -/
def JsError.toStr (e : JsError) : Str :=
  if e.message = [] then e.name
  else if e.name = [] then e.message
  else e.name ++ ": ".toList ++ e.message

/-- `String.prototype.startsWith`. -/
def startsWith (s pre : Str) : Bool := pre.isPrefixOf s

/-- `String.prototype.endsWith`, for a one-character suffix. -/
def endsWithChar (s : Str) (c : Char) : Bool := s.getLast? == some c

/-- Truthiness of an optional string property: present and not empty. -/
def truthyStr : Option Str → Option Str
  | some s => if s = [] then none else some s
  | none => none

/-! ## The POSIX `path` module -/

/-- The segments of a path: the pieces between the `/` characters, empty pieces
included (`a//b/` has the segments `a`, empty, `b`, empty). -/
def splitSlash : Str → List Str
  | [] => [[]]
  | c :: cs =>
    if c = '/' then [] :: splitSlash cs
    else
      match splitSlash cs with
      | [] => [[c]]
      | s :: ss => (c :: s) :: ss

/-- Segments joined by `/`. -/
def joinSlash : List Str → Str
  | [] => []
  | [s] => s
  | s :: t :: ss => s ++ '/' :: joinSlash (t :: ss)

/-- One separator step of `normalizeString`, on the segment that ends there.
`res` is the result so far, last segment first.  An empty segment and `.` are
dropped; `..` removes the last segment, unless there is none or it is itself
`..`, in which case `..` is kept only when `allowAboveRoot`; any other segment
is added. -/
def normalizeStep (allowAboveRoot : Bool) (res : List Str) (seg : Str) : List Str :=
  if seg = [] ∨ seg = ['.'] then res
  else if seg = ['.', '.'] then
    match res with
    | [] => if allowAboveRoot then [seg] else []
    | top :: rest =>
      if top = ['.', '.'] then (if allowAboveRoot then seg :: res else res)
      else rest
  else seg :: res

/-- The segments that `normalizeString` keeps, in order. -/
def normalizeSegments (path : Str) (allowAboveRoot : Bool) : List Str :=
  ((splitSlash path).foldl (normalizeStep allowAboveRoot) []).reverse

/-- `normalizeString(path, allowAboveRoot, '/', isPosixPathSeparator)`. -/
def normalizeString (path : Str) (allowAboveRoot : Bool) : Str :=
  joinSlash (normalizeSegments path allowAboveRoot)

/-- `path.posix.normalize`. -/
def normalize (path : Str) : Str :=
  if path = [] then ['.']
  else
    let isAbsolute := path.head? == some '/'
    let trailingSeparator := path.getLast? == some '/'
    let p := normalizeString path (!isAbsolute)
    if p = [] then
      if isAbsolute then ['/'] else if trailingSeparator then ['.', '/'] else ['.']
    else
      let p := if trailingSeparator then p ++ ['/'] else p
      if isAbsolute then '/' :: p else p

/-- `path.posix.join` of two arguments: the non-empty ones joined by `/`, then
normalised. -/
def join (a b : Str) : Str :=
  if a = [] then (if b = [] then ['.'] else normalize b)
  else if b = [] then normalize a
  else normalize (a ++ '/' :: b)

/-- The right-to-left loop of `path.posix.resolve`: prepend arguments until an
absolute one has been prepended; empty arguments are skipped. -/
def resolveLoop : List Str → Str → Str × Bool
  | [], acc => (acc, false)
  | p :: ps, acc =>
    if p = [] then resolveLoop ps acc
    else if p.head? == some '/' then (p ++ '/' :: acc, true)
    else resolveLoop ps (p ++ '/' :: acc)

/-- `path.posix.resolve(...args)` in a process whose working directory is `cwd`. -/
def resolve (cwd : Str) (args : List Str) : Str :=
  let r := resolveLoop (args.reverse ++ [cwd]) []
  let p := normalizeString r.1 (!r.2)
  if r.2 then '/' :: p
  else if p = [] then ['.'] else p

/-- `path.posix.extname`: trailing slashes are ignored and the last segment is
looked at; the extension runs from its last `.` to its end, and is empty when
that segment has no `.`, when its only `.` is its first character, or when the
segment is `..`. -/
def extname (path : Str) : Str :=
  let baseRev := (path.reverse.dropWhile (· == '/')).takeWhile (· != '/')
  let extRev := baseRev.takeWhile (· != '.')
  if extRev.length = baseRev.length then []
  else if extRev.length + 1 = baseRev.length then []
  else if baseRev = ['.', '.'] then []
  else '.' :: extRev.reverse

/-! ## Objects with string keys -/

/-- A JavaScript object (or `Map`) whose keys and values are strings, the keys
in insertion order. -/
abbrev Obj := List (Str × Str)

/-- Property read, `obj[key]` or `map.get(key)`. -/
def Obj.get (o : Obj) (key : Str) : Option Str :=
  match o with
  | [] => none
  | (k, v) :: rest => if k = key then some v else Obj.get rest key

/-- Property write, `obj[key] = value` or `map.set(key, value)`: an existing key
keeps its place and gets the new value, a new key goes last. -/
def Obj.set (o : Obj) (key value : Str) : Obj :=
  match o with
  | [] => [(key, value)]
  | (k, v) :: rest => if k = key then (k, value) :: rest else (k, v) :: Obj.set rest key value

/-- Object spread `{...a, ...b}`. -/
def Obj.spread (a b : Obj) : Obj :=
  b.foldl (fun acc kv => Obj.set acc kv.1 kv.2) a

/-! ## The scheme table and the MIME table -/

/-- The `Metadata` of a scheme.  An absent boolean is `false`, an absent string
is `none`. -/
structure Metadata where
  root : Str
  standard : Bool := false
  supportFetch : Bool := false
  secure : Bool := false
  brotli : Bool := false
  embeddable : Bool := false
  stream : Bool := false
  directoryIndex : Option Str := none
  defaultExtension : Option Str := none
  csp : Option Str := none
deriving DecidableEq

/-- The content security policy shared by several schemes. -/
def cspInline : Str :=
  ("default-src " ++ "\x27none\x27; style-src \x27unsafe-inline\x27; " ++
   "script-src \x27unsafe-inline\x27").toList

/-- The content security policy of the two extension schemes. -/
def cspExtensions : Str :=
  ("default-src \x27none\x27; img-src \x27self\x27 data:; style-src \x27unsafe-inline\x27; " ++
   "script-src \x27self\x27 \x27unsafe-inline\x27").toList

/-- `FILE_SCHEMES`, in a process whose `__dirname` is `dirname` (an absolute path,
so that `path.resolve` never consults the working directory `cwd`). -/
def FILE_SCHEMES (cwd dirname : Str) : List (Str × Metadata) :=
  let at_ (rel : String) : Str := resolve cwd [dirname, rel.toList]
  [ ("tw-editor".toList,
      { root := at_ "../dist-renderer-webpack/editor", standard := true, supportFetch := true,
        secure := true, embeddable := true }),
    ("tw-desktop-settings".toList,
      { root := at_ "../src-renderer/desktop-settings", csp := some cspInline }),
    ("tw-privacy".toList,
      { root := at_ "../src-renderer/privacy", csp := some cspInline }),
    ("tw-about".toList,
      { root := at_ "../src-renderer/about", csp := some (cspInline ++ "; img-src *".toList),
        standard := true, secure := true }),
    ("tw-packager".toList,
      { root := at_ "../src-renderer/packager", standard := true, secure := true,
        embeddable := true }),
    ("tw-library".toList,
      { root := at_ "../dist-library-files", supportFetch := true, brotli := true,
        csp := some "default-src \x27none\x27;".toList }),
    ("tw-extensions".toList,
      { root := at_ "../dist-extensions", supportFetch := true, brotli := true,
        embeddable := true, stream := true, directoryIndex := some "index.html".toList,
        defaultExtension := some ".html".toList, csp := some cspExtensions }),
    ("tw-astra-extensions".toList,
      { root := at_ "../dist-astra-extensions", supportFetch := true, embeddable := true,
        stream := true, directoryIndex := some "index.html".toList,
        defaultExtension := some ".html".toList, csp := some cspExtensions }),
    ("tw-update".toList,
      { root := at_ "../src-renderer/update",
        csp := some (cspInline ++ "; connect-src https:".toList) }),
    ("tw-security-prompt".toList,
      { root := at_ "../src-renderer/security-prompt", csp := some (cspInline ++ [';']) }),
    ("tw-file-access".toList,
      { root := at_ "../src-renderer/file-access", csp := some cspInline }) ]

/-- The descriptor registered for a scheme. -/
def schemeMetadata (cwd dirname : Str) (scheme : String) : Option Metadata :=
  ((FILE_SCHEMES cwd dirname).find? (fun e => e.1 == scheme.toList)).map (·.2)

/-- `MIME_TYPES`: the `Map` after the `set` calls of the module, in their order. -/
def MIME_TYPES : Obj :=
  [ (".html", "text/html"), (".js", "text/javascript"), (".map", "application/json"),
    (".txt", "text/plain"), (".json", "application/json"), (".wav", "audio/wav"),
    (".svg", "image/svg+xml"), (".png", "image/png"), (".jpg", "image/jpeg"),
    (".gif", "image/gif"), (".cur", "image/x-icon"), (".ico", "image/x-icon"),
    (".mp3", "audio/mpeg"), (".mp4", "video/mp4"), (".wav", "audio/wav"),
    (".ogg", "audio/ogg"), (".ttf", "font/ttf"), (".otf", "font/otf"),
    (".woff", "font/woff"), (".woff2", "font/woff2"), (".hex", "application/octet-stream"),
    (".zip", "application/zip"), (".xml", "text/xml"), (".md", "text/markdown")
  ].foldl (fun (m : Obj) (kv : String × String) => m.set kv.1.toList kv.2.toList) []

/-! ## Headers -/

/-- The constant `errorPageHeaders`. -/
def errorPageHeaders : Obj :=
  [ ("content-type".toList, "text/html".toList),
    ("content-security-policy".toList, "default-src \x27none\x27".toList) ]

/-- `getBaseProtocolHeaders`. -/
def getBaseProtocolHeaders (metadata : Metadata) : Obj :=
  let result : Obj := [("x-content-type-options".toList, "nosniff".toList)]
  let result :=
    match truthyStr metadata.csp with
    | some csp => result.set "content-security-policy".toList csp
    | none => result
  let result :=
    if !metadata.embeddable then result.set "x-frame-options".toList "DENY".toList
    else result
  result

/-! ## URLs -/

/-- What `resolveRequestPath` reads of a parsed `URL`: `protocol` (the scheme
with its colon) and `pathname`.  The path of a URL is either hierarchical, and
then `pathname` is empty or starts with `/`, or opaque (as in `tw-library:a/b`),
and then `pathname` does not start with `/`. -/
structure URL where
  protocol : Str
  pathname : Str
deriving DecidableEq

/-- What the URL parser guarantees of a hierarchical path: it has no `.` and no
`..` segment, the parser having resolved them.  An opaque path is kept as
written. -/
def URL.wellFormed (u : URL) : Bool :=
  if u.pathname.head? == some '/' then
    (splitSlash u.pathname).all (fun seg => seg != ['.'] && seg != ['.', '.'])
  else true

/-- A file name written with letters, digits, `.`, `-` and `_` only, other than
`.` and `..`: as a relative URL reference it is a single path segment that the
URL parser keeps as written. -/
def isPlainFileName (s : Str) : Bool :=
  s != [] && s.all (fun c => c.isAlphanum || c == '.' || c == '-' || c == '_') &&
  s != ['.'] && s != ['.', '.']

/-- The value of `new URL(relative, base).pathname`.  Two cases are modelled, for
a plain file name `relative` and a `base` whose pathname ends in `/`: against an
opaque base path the constructor throws, against a hierarchical one the name
replaces the (empty) last segment.  Every other call is answered by `other`,
which stands for the URL library there. -/
def relativePathname (other : Str → URL → Except JsError Str) (relative : Str) (base : URL) :
    Except JsError Str :=
  if isPlainFileName relative && endsWithChar base.pathname '/' then
    if base.pathname.head? == some '/' then .ok (base.pathname ++ relative)
    else .error JsError.invalidURL
  else other relative base

/-! ## `resolveRequestPath` -/

/-- The result object of `resolveRequestPath`. -/
structure Resolved where
  scheme : Str
  resolved : Str
  fileExtension : Str
deriving DecidableEq

/-- `parsedURL.protocol.replace(/:$/, '')`. -/
def schemeOf (parsedURL : URL) : Str :=
  if parsedURL.protocol.getLast? == some ':' then parsedURL.protocol.dropLast
  else parsedURL.protocol

/-- The pathname after the directory-index step (lines 214-217). -/
def indexedPathname (other : Str → URL → Except JsError Str) (metadata : Metadata)
    (parsedURL : URL) : Except JsError Str :=
  match truthyStr metadata.directoryIndex with
  | some directoryIndex =>
    if endsWithChar parsedURL.pathname '/' then relativePathname other directoryIndex parsedURL
    else .ok parsedURL.pathname
  | none => .ok parsedURL.pathname

/-- The default-extension step (lines 219-221). -/
def withDefaultExtension (metadata : Metadata) (pathname : Str) : Str :=
  match truthyStr metadata.defaultExtension with
  | some defaultExtension => if extname pathname = [] then pathname ++ defaultExtension else pathname
  | none => pathname

/-- The pathname after both steps (lines 214-221). -/
def adjustedPathname (other : Str → URL → Except JsError Str) (metadata : Metadata)
    (parsedURL : URL) : Except JsError Str :=
  (indexedPathname other metadata parsedURL).map (withDefaultExtension metadata)

/-- The list `candidatePathnames` (lines 223-232). -/
def candidatePathnames (scheme pathname : Str) : List Str :=
  if scheme = "tw-editor".toList ∧
      (startsWith pathname "/static/".toList ∨ startsWith pathname "/extension-editor/".toList)
  then [pathname, "/gui".toList ++ pathname]
  else [pathname]

/-- The existence test of one candidate (lines 242-250): whether it is accepted,
and the paths given to `fs.existsSync`, in order.  On a brotli scheme the raw
file is looked at only when the `.br` file is absent. -/
def probeCandidate (brotli : Bool) (existsSync : Str → Bool) (candidate : Str) :
    Bool × List Str :=
  if brotli then
    if existsSync (candidate ++ ".br".toList) then (true, [candidate ++ ".br".toList])
    else (existsSync candidate, [candidate ++ ".br".toList, candidate])
  else (existsSync candidate, [candidate])

/-- The `for` loop over the candidates (lines 236-251): the value of `resolved`
after the loop, and the paths given to `fs.existsSync`, in order. -/
def searchCandidates (root : Str) (brotli : Bool) (existsSync : Str → Bool) :
    List Str → Option Str × List Str
  | [] => (none, [])
  | candidatePathname :: rest =>
    let candidate := join root candidatePathname
    if !startsWith candidate root then searchCandidates root brotli existsSync rest
    else
      let probe := probeCandidate brotli existsSync candidate
      if probe.1 then (some candidate, probe.2)
      else
        let later := searchCandidates root brotli existsSync rest
        (later.1, probe.2 ++ later.2)

/-- The error of line 257. -/
def pathTraversalBlocked : JsError := JsError.mk_error "Path traversal blocked".toList

/-- The part of `resolveRequestPath` after the pathname is known (lines 223-265). -/
def resolveFrom (metadata : Metadata) (existsSync : Str → Bool) (scheme pathname : Str) :
    Except JsError Resolved × List Str :=
  let root := join metadata.root ['/']
  let candidates := candidatePathnames scheme pathname
  let found := searchCandidates root metadata.brotli existsSync candidates
  let resolved :=
    match found.1 with
    | some r => if r = [] then join root pathname else r
    | none => join root pathname
  if !startsWith resolved root then (.error pathTraversalBlocked, found.2)
  else (.ok { scheme := scheme, resolved := resolved, fileExtension := extname resolved }, found.2)

/-- `resolveRequestPath(metadata, parsedURL)`, with the file system as the
function `existsSync`: what it returns or throws, and the paths it gave to
`fs.existsSync`, in order. -/
def resolveRequestPath (other : Str → URL → Except JsError Str) (existsSync : Str → Bool)
    (metadata : Metadata) (parsedURL : URL) : Except JsError Resolved × List Str :=
  match adjustedPathname other metadata parsedURL with
  | .error e => (.error e, [])
  | .ok pathname => resolveFrom metadata existsSync (schemeOf parsedURL) pathname

/-! ## The protocol handlers -/

/-- The bytes of a file or of a response. -/
abbrev Bytes := List Nat

/-- What `net.fetch` resolves to: the `ok` flag and the bytes of the body. -/
structure FetchResult where
  ok : Bool
  body : Bytes
deriving DecidableEq

/-- The services a handler calls, one request long: the state of the file
system as seen by `fs.existsSync`, by `net.fetch(pathToFileURL(path))` and by
`fsPromises.readFile`; the URL constructor (`newURL` for `new URL(request.url)`,
`newURLRelative` for the calls of the two-argument constructor that
`relativePathname` does not model); `zlib.brotliDecompress`; the version strings
of the error page; and `__dirname`.  A rejected promise is an error value. -/
structure Env where
  existsSync : Str → Bool
  netFetch : Str → Except JsError FetchResult
  readFile : Str → Except JsError Bytes
  newURL : Str → Except JsError URL
  newURLRelative : Str → URL → Except JsError Str
  brotliDecompress : Bytes → Except JsError Bytes
  info : VersionInfo
  dirname : Str

/-- The body of a response: the text of an error page, a buffer of bytes, or
the stream of a fetched file. -/
inductive Body where
  | text (html : Str)
  | buffer (data : Bytes)
  | stream (data : Bytes)
deriving DecidableEq

/-- A `Response` of the modern handler; `new Response(body, {headers})` has
status 200. -/
structure Response where
  status : Nat := 200
  headers : Obj
  body : Body
deriving DecidableEq

/-- The object a legacy buffer handler gives to its callback. -/
structure BufferResult where
  data : Body
  statusCode : Option Nat := none
  headers : Obj
deriving DecidableEq

/-- The object a legacy file handler gives to its callback.  The declared result
type has the fields `path`, `statusCode` and `headers`; the error branch writes
a field `status` instead. -/
structure FileResult where
  path : Str
  status : Option Nat := none
  statusCode : Option Nat := none
  headers : Obj
deriving DecidableEq

/-- The lookup `MIME_TYPES.get(fileExtension)` followed by the test
`if (!mimeType)`: a type that is present and not empty. -/
def mimeTypeOf (fileExtension : Str) : Option Str :=
  truthyStr (MIME_TYPES.get fileExtension)

/-- The error `Invalid file extension: ...`. -/
def invalidFileExtension (fileExtension : Str) : JsError :=
  JsError.mk_error ("Invalid file extension: ".toList ++ fileExtension)

/-- The error `File not found: ...`. -/
def fileNotFound (path : Str) : JsError :=
  JsError.mk_error ("File not found: ".toList ++ path)

/-- The steps shared by the three handlers: parse the URL, resolve the path. -/
def resolveRequest (env : Env) (metadata : Metadata) (url : Str) : Except JsError Resolved := do
  let parsedURL ← env.newURL url
  (resolveRequestPath env.newURLRelative env.existsSync metadata parsedURL).1

/-- `createErrorResponse` of the modern handler. -/
def createErrorResponse (env : Env) (metadata : Metadata) (url : Str) (e : JsError) : Response :=
  { status := 400
    headers := (getBaseProtocolHeaders metadata).spread errorPageHeaders
    body := .text (createErrorPageHTML env.info url e.toStr) }

/-- The `try` block of the modern handler: the response it returns, or the
error it throws. -/
def modernTry (env : Env) (metadata : Metadata) (url : Str) : Except JsError Response := do
  let r ← resolveRequest env metadata url
  match mimeTypeOf r.fileExtension with
  | none => pure (createErrorResponse env metadata url (invalidFileExtension r.fileExtension))
  | some mimeType =>
    let headers := (getBaseProtocolHeaders metadata).set "content-type".toList mimeType
    if metadata.brotli then
      let brotliPath := r.resolved ++ ".br".toList
      if env.existsSync brotliPath then
        let brotliResponse ← env.netFetch brotliPath
        if !brotliResponse.ok then throw (fileNotFound brotliPath)
        let decompressed ← env.brotliDecompress brotliResponse.body
        pure { headers := headers, body := .buffer decompressed }
      else
        let rawResponse ← env.netFetch r.resolved
        if !rawResponse.ok then throw (fileNotFound r.resolved)
        pure { headers := headers, body := .stream rawResponse.body }
    else
      let response ← env.netFetch r.resolved
      if !response.ok then throw (fileNotFound r.resolved)
      pure { headers := headers, body := .stream response.body }

/-- The handler made by `createModernProtocolHandler(metadata)`, on a request
with the given `url`: the response its promise resolves to. -/
def createModernProtocolHandler (env : Env) (metadata : Metadata) (url : Str) : Response :=
  match modernTry env metadata url with
  | .ok response => response
  | .error e => createErrorResponse env metadata url e

/-- `returnErrorPage` of the legacy buffer handler. -/
def returnErrorPage (env : Env) (metadata : Metadata) (url : Str) (e : JsError) : BufferResult :=
  { data := .text (createErrorPageHTML env.info url e.toStr)
    statusCode := some 400
    headers := (getBaseProtocolHeaders metadata).spread errorPageHeaders }

/-- The `try` block of the legacy buffer handler. -/
def legacyBrotliTry (env : Env) (metadata : Metadata) (url : Str) :
    Except JsError BufferResult := do
  let r ← resolveRequest env metadata url
  match mimeTypeOf r.fileExtension with
  | none => pure (returnErrorPage env metadata url (invalidFileExtension r.fileExtension))
  | some mimeType =>
    let brotliPath := r.resolved ++ ".br".toList
    let data ←
      if env.existsSync brotliPath then do
        let brotliData ← env.readFile brotliPath
        env.brotliDecompress brotliData
      else env.readFile r.resolved
    pure { data := .buffer data
           headers := (getBaseProtocolHeaders metadata).set "content-type".toList mimeType }

/-- The handler made by `createLegacyBrotliProtocolHandler(metadata)`: the object
given to the callback. -/
def createLegacyBrotliProtocolHandler (env : Env) (metadata : Metadata) (url : Str) :
    BufferResult :=
  match legacyBrotliTry env metadata url with
  | .ok result => result
  | .error e => returnErrorPage env metadata url e

/-- `returnErrorResponse` of the legacy file handler; `errorPage` names one of the
error pages on disk. -/
def returnErrorResponse (env : Env) (metadata : Metadata) (errorPage : Str) : FileResult :=
  { status := some 400
    path := join env.dirname
      ("../src-protocol-error/legacy-file/".toList ++ errorPage ++ ".html".toList)
    headers := (getBaseProtocolHeaders metadata).spread errorPageHeaders }

/-- The handler made by `createLegacyFileProtocolHandler(metadata)`: the object
given to the callback. -/
def createLegacyFileProtocolHandler (env : Env) (metadata : Metadata) (url : Str) : FileResult :=
  match resolveRequest env metadata url with
  | .error _ => returnErrorResponse env metadata "unknown".toList
  | .ok r =>
    match mimeTypeOf r.fileExtension with
    | none => returnErrorResponse env metadata "invalid-extension".toList
    | some mimeType =>
      { path := r.resolved
        headers := (getBaseProtocolHeaders metadata).set "content-type".toList mimeType }

/-! ## Definitions used in the statements -/

/-- Every `<` of the text is followed by a character other than `s`. -/
def ltGuarded : Str → Bool
  | [] => true
  | [c] => c != '<'
  | a :: b :: r => (a != '<' || b != 's') && ltGuarded (b :: r)

/-- The header `x-frame-options: DENY` is among the headers. -/
def frameDenied (headers : Obj) : Prop :=
  headers.get "x-frame-options".toList = some "DENY".toList

/-- The frame rule of a descriptor, on one request: each handler's success
result (status 200 for the modern handler, no status for the legacy ones)
carries `x-frame-options: DENY` exactly when `deny` holds. -/
def FrameRule (env : Env) (metadata : Metadata) (url : Str) (deny : Prop) : Prop :=
  ((createModernProtocolHandler env metadata url).status = 200 →
    (frameDenied (createModernProtocolHandler env metadata url).headers ↔ deny)) ∧
  ((createLegacyBrotliProtocolHandler env metadata url).statusCode = none →
    (frameDenied (createLegacyBrotliProtocolHandler env metadata url).headers ↔ deny)) ∧
  ((createLegacyFileProtocolHandler env metadata url).status = none →
    (frameDenied (createLegacyFileProtocolHandler env metadata url).headers ↔ deny))

/-- A sample environment: every file exists and holds the bytes 1, 2, 3, which
decompress to themselves, and the URL constructor knows three request URLs. -/
def sampleEnv : Env where
  existsSync := fun _ => true
  netFetch := fun _ => .ok ⟨true, [1, 2, 3]⟩
  readFile := fun _ => .ok [1, 2, 3]
  newURL := fun u =>
    if u = "tw-desktop-settings://./index.html".toList then
      .ok ⟨"tw-desktop-settings:".toList, "/index.html".toList⟩
    else if u = "tw-library://./file.unknownext".toList then
      .ok ⟨"tw-library:".toList, "/file.unknownext".toList⟩
    else if u = "tw-editor://./gui/index.html".toList then
      .ok ⟨"tw-editor:".toList, "/gui/index.html".toList⟩
    else .error JsError.invalidURL
  newURLRelative := fun _ _ => .error JsError.invalidURL
  brotliDecompress := fun b => .ok b
  info := ⟨"1.0.0".toList, "30.0.0".toList, "linux".toList, "x64".toList, "prod".toList⟩
  dirname := "/app/src-main".toList

/-- The descriptor of a scheme when `__dirname` is `/app/src-main`; a descriptor
with an empty root for a name that is not registered. -/
def sampleMetadata (scheme : String) : Metadata :=
  (schemeMetadata "/".toList "/app/src-main".toList scheme).getD { root := [] }

/-- A segment that normalisation keeps as it is: not empty, not `.`, not `..`,
and without `/`. -/
def CleanSeg (s : Str) : Prop := s ≠ [] ∧ s ≠ ['.'] ∧ s ≠ ['.', '.'] ∧ '/' ∉ s

/-- The segments that are neither empty nor `.`. -/
def keptSegments (segs : List Str) : List Str :=
  segs.filter (fun s => s != [] && s != ['.'])

/-- Segments written one after the other, each followed by `/`. -/
def dirString : List Str → Str
  | [] => []
  | s :: ss => s ++ '/' :: dirString ss

/-- A normalised absolute path other than `/`, such as `path.resolve` returns. -/
def isResolvedPath (root : Str) : Bool :=
  root.head? == some '/' && root.getLast? != some '/' && normalize root == root

/-- What a path without `..` segment adds to the root prefix: its kept segments
joined by `/`, and the trailing `/` if it has one. -/
def relativeTail (p : Str) : Str :=
  joinSlash (keptSegments (splitSlash p)) ++ (if p.getLast? = some '/' then ['/'] else [])

/-- An environment in which only `.br` files exist: the raw file of every path is
absent and unreadable, the `.br` file holds the bytes 7, 8, which decompress to
the byte 9. -/
def sidecarEnv : Env where
  existsSync := fun p => ".br".toList.reverse.isPrefixOf p.reverse
  netFetch := fun p =>
    if ".br".toList.reverse.isPrefixOf p.reverse then .ok ⟨true, [7, 8]⟩
    else .error (fileNotFound p)
  readFile := fun p =>
    if ".br".toList.reverse.isPrefixOf p.reverse then .ok [7, 8]
    else .error (fileNotFound p)
  newURL := fun u =>
    if u = "tw-library://./a/sound.wav".toList then
      .ok ⟨"tw-library:".toList, "/a/sound.wav".toList⟩
    else .error JsError.invalidURL
  newURLRelative := fun _ _ => .error JsError.invalidURL
  brotliDecompress := fun b => if b = [7, 8] then .ok [9] else .error (JsError.mk_error [])
  info := ⟨"1.0.0".toList, "30.0.0".toList, "linux".toList, "x64".toList, "prod".toList⟩
  dirname := "/app/src-main".toList

/-- The headers of an error page: `content-type: text/html` and the content
security policy `default-src 'none'`. -/
def errorPageHeadersIn (headers : Obj) : Prop :=
  headers.get "content-type".toList = some "text/html".toList ∧
  headers.get "content-security-policy".toList = some "default-src \x27none\x27".toList

/-- The fixed table of content types, as pairs of an extension and a type. -/
def mimeTable : List (String × String) :=
  [ (".html", "text/html"), (".js", "text/javascript"), (".map", "application/json"),
    (".txt", "text/plain"), (".json", "application/json"), (".wav", "audio/wav"),
    (".svg", "image/svg+xml"), (".png", "image/png"), (".jpg", "image/jpeg"),
    (".gif", "image/gif"), (".cur", "image/x-icon"), (".ico", "image/x-icon"),
    (".mp3", "audio/mpeg"), (".mp4", "video/mp4"), (".ogg", "audio/ogg"),
    (".ttf", "font/ttf"), (".otf", "font/otf"), (".woff", "font/woff"),
    (".woff2", "font/woff2"), (".hex", "application/octet-stream"),
    (".zip", "application/zip"), (".xml", "text/xml"), (".md", "text/markdown") ]

/-- An environment without files: nothing exists, every fetch and every read
fails. -/
def missingEnv : Env where
  existsSync := fun _ => false
  netFetch := fun _ => .error (JsError.mk_error "net::ERR_FILE_NOT_FOUND".toList)
  readFile := fun _ => .error (JsError.mk_error "ENOENT".toList)
  newURL := fun u =>
    if u = "tw-desktop-settings://./missing.html".toList then
      .ok ⟨"tw-desktop-settings:".toList, "/missing.html".toList⟩
    else .error JsError.invalidURL
  newURLRelative := fun _ _ => .error JsError.invalidURL
  brotliDecompress := fun b => .ok b
  info := ⟨"1.0.0".toList, "30.0.0".toList, "linux".toList, "x64".toList, "prod".toList⟩
  dirname := "/app/src-main".toList

/-- The two ways of reading a file agree: what `fsPromises.readFile` returns,
`net.fetch` fetches with `ok` set, and what `readFile` cannot read, `net.fetch`
does not fetch with `ok` set. -/
def FsAgree (env : Env) : Prop :=
  ∀ path, match env.readFile path with
    | .ok bytes => env.netFetch path = .ok ⟨true, bytes⟩
    | .error _ => ∀ f, env.netFetch path = .ok f → f.ok = false

/-! # The extension mirror (`scripts/prepare-extensions.mjs`) -/

/-- The backslash character. -/
def backslash : Char := Char.ofNat 92

/-- `s.replace(/^\/+/, '')`: the string without its leading `/` characters. -/
def stripLeadingSlashes (s : Str) : Str := s.dropWhile (· == '/')

/-- The second `replace` of `normalizeRelativePath`, whose pattern is the global
one-character pattern for a backslash: every backslash becomes `/`. -/
def backslashesToSlashes (s : Str) : Str := s.map (fun c => if c = backslash then '/' else c)

/-- `normalized.split('/').filter(Boolean)`: the non-empty segments. -/
def nonEmptyParts (normalized : Str) : List Str :=
  (splitSlash normalized).filter (fun part => part != [])

/-- `normalizeRelativePath`, on the string form of its argument. -/
def normalizeRelativePath (relativePath : Str) : Except JsError Str :=
  let normalized := backslashesToSlashes (stripLeadingSlashes relativePath)
  let parts := nonEmptyParts normalized
  if parts.length = 0 ∨ parts.any (fun i => i == ['.', '.']) then
    .error (JsError.mk_error ("Invalid relative path: ".toList ++ relativePath))
  else .ok (joinSlash parts)

/-- `path.posix.dirname`: trailing slashes and the last segment are dropped, with
the slash before it; a path without such a slash has the directory `/` or `.`. -/
def dirname (path : Str) : Str :=
  if path = [] then ['.']
  else
    let hasRoot := path.head? == some '/'
    let afterSegment := ((path.tail.reverse.dropWhile (· == '/')).dropWhile (· != '/'))
    if afterSegment = [] then (if hasRoot then ['/'] else ['.'])
    else if hasRoot && afterSegment.length == 1 then ['/', '/']
    else path.take afterSegment.length

/-- A call of `fsPromises.mkdir(path, {recursive: true})` or of
`fsPromises.writeFile(path, data)`. -/
inductive FsAction where
  | mkdir (path : Str)
  | writeFile (path : Str) (data : Bytes)
deriving DecidableEq

/-- `writeCompressed(root, relativePath, data)`: the file-system calls it makes (when
each of them succeeds), and how it ends.  `brotliCompress` is the promisified
`zlib.brotliCompress`. -/
def writeCompressed (brotliCompress : Bytes → Except JsError Bytes) (root relativePath : Str)
    (data : Bytes) : List FsAction × Except JsError Unit :=
  match normalizeRelativePath relativePath with
  | .error e => ([], .error e)
  | .ok normalizedRelativePath =>
    let outputPath := join root (normalizedRelativePath ++ ".br".toList)
    match brotliCompress data with
    | .error e => ([.mkdir (dirname outputPath)], .error e)
    | .ok compressed => ([.mkdir (dirname outputPath), .writeFile outputPath compressed], .ok ())

/-- `writeRaw(root, relativePath, data)`: the file-system calls it makes (when each
of them succeeds), and how it ends. -/
def writeRaw (root relativePath : Str) (data : Bytes) : List FsAction × Except JsError Unit :=
  match normalizeRelativePath relativePath with
  | .error e => ([], .error e)
  | .ok normalized =>
    let outputPath := join root normalized
    ([.mkdir (dirname outputPath), .writeFile outputPath data], .ok ())

/-- The path that an action creates or writes. -/
def FsAction.path : FsAction → Str
  | .mkdir path => path
  | .writeFile path _ => path

/-- A normalised path lies in the directory `root`: it starts with the root prefix
(`root` joined with a trailing `/`), or it is the root directory itself, the root
prefix without its final `/`. -/
def liesUnder (root outputPath : Str) : Prop :=
  join root ['/'] <+: outputPath ∨ outputPath ++ ['/'] = join root ['/']

/-! # The update checker (`src-main/update-checker.js`) -/

/-- The settings the update checker reads and writes. -/
structure Settings where
  updateChecker : Str
  ignoredUpdate : Option Str
  ignoredUpdateUntil : Int
deriving DecidableEq

/-- The fields of `version.json` that `checkForUpdates` reads; a field that is
absent or not a string is `none`. -/
structure VersionInfoJson where
  latest : Option Str
  latest_unstable : Option Str
  oldest_safe : Option Str

/-- The two functions of the `semver` package: `valid` returns the version or
`null`, `lt` compares two versions, and throws on one that is not a version. -/
structure Semver where
  valid : Option Str → Option Str
  lt : Str → Str → Except JsError Bool

/-- A call of `UpdateWindow.updateAvailable(currentVersion, latestVersion, isSecurity)`. -/
structure UpdateAvailable where
  currentVersion : Str
  latestVersion : Str
  isSecurity : Bool
deriving DecidableEq

/-- `a || b` for a version that may be `null`. -/
def orVersion (a : Option Str) (b : Str) : Str :=
  match truthyStr a with
  | some v => v
  | none => b

/-- `checkForUpdates`: the call of `UpdateWindow.updateAvailable` it makes, if any,
or the error its promise rejects with.  `allowed` is `isUpdateCheckerAllowed()`,
`fetched` the outcome of `fetchVersionInfo()`, `now` is `Date.now()`. -/
def checkForUpdates (semver : Semver) (allowed : Bool) (settings : Settings)
    (currentVersion : Str) (fetched : Except JsError VersionInfoJson) (now : Int) :
    Except JsError (Option UpdateAvailable) :=
  if !allowed || settings.updateChecker == "never".toList then pure none
  else do
    let json ← fetched
    let latestStable := orVersion (semver.valid json.latest) currentVersion
    let latestUnstable := orVersion (semver.valid json.latest_unstable) latestStable
    let oldestSafe := orVersion (semver.valid json.oldest_safe) currentVersion
    if ← semver.lt currentVersion oldestSafe then
      pure (some ⟨currentVersion, latestStable, true⟩)
    else if settings.updateChecker == "security".toList then pure none
    else
      let latest :=
        if settings.updateChecker == "unstable".toList then latestUnstable else latestStable
      let ignoredUpdate := settings.ignoredUpdate
      let ignoredUpdateUntil := settings.ignoredUpdateUntil * 1000
      if ignoredUpdate = some latest ∧ now < ignoredUpdateUntil then pure none
      else if ← semver.lt currentVersion latest then
        pure (some ⟨currentVersion, latest, false⟩)
      else pure none

/-- `ignoreUpdate(version, until)`: the settings it saves; `untilTime` is
`until.getTime()`, and the division rounds down as `Math.floor` does. -/
def ignoreUpdate (settings : Settings) (version : Str) (untilTime : Int) : Settings :=
  { settings with ignoredUpdate := some version, ignoredUpdateUntil := Int.fdiv untilTime 1000 }

/-- The time until which the `ignore` function of the update window ignores an
update: `new Date(0)` for a security update, the year 3000 for a permanent
dismissal, six hours from now otherwise. -/
def ignoreUntil (security permanently : Bool) (now year3000 : Int) : Int :=
  if security then 0
  else if permanently then year3000
  else now + 1000 * 60 * 60 * 6

/-- A version library for the samples: every string is a valid version, and a
version is lower than another when it is shorter. -/
def sampleSemver : Semver where
  valid := fun v => v
  lt := fun a b => .ok (decide (a.length < b.length))

/-! # Theorems -/

/-! ## `escapeXML` and the error page -/

theorem escapeXML_nil : escapeXML [] = [] := rfl

theorem escapeXML_cons (c : Char) (s : Str) : escapeXML (c :: s) = entityOf c ++ escapeXML s := by
  have h : (if escapeXMLClass c then escapeXMLCallback c else [c]) = entityOf c := by
    unfold escapeXMLClass escapeXMLCallback entityOf
    by_cases h1 : c = '<'
    · simp [h1]
    by_cases h2 : c = '>'
    · simp [h2]
    by_cases h3 : c = '&'
    · simp [h3]
    by_cases h4 : c = apos
    · simp [h4]
    by_cases h5 : c = dquote
    · simp [h5]
    simp [h1, h2, h3, h4, h5]
  show (if escapeXMLClass c then escapeXMLCallback c else [c]) ++ escapeXML s = _
  rw [h]

theorem escapeXML_append (a b : Str) : escapeXML (a ++ b) = escapeXML a ++ escapeXML b := by
  induction a with
  | nil => simp [escapeXML_nil]
  | cons c a ih => simp [escapeXML_cons, ih]

theorem escapeXML_eq_flatMap (s : Str) : escapeXML s = s.flatMap entityOf := by
  induction s with
  | nil => rfl
  | cons c s ih => rw [escapeXML_cons, ih, List.flatMap_cons]

/-- The characters of an entity: none of them is `<`, `>` or a quote. -/
theorem entityOf_chars (c x : Char) (hx : x ∈ entityOf c) :
    x ≠ '<' ∧ x ≠ '>' ∧ x ≠ apos ∧ x ≠ dquote := by
  unfold entityOf at hx
  split_ifs at hx with h1 h2 h3 h4 h5
  all_goals simp at hx
  · rcases hx with h | h | h | h <;> subst h <;> decide
  · rcases hx with h | h | h | h <;> subst h <;> decide
  · rcases hx with h | h | h | h | h <;> subst h <;> decide
  · rcases hx with h | h | h | h | h | h <;> subst h <;> decide
  · rcases hx with h | h | h | h | h | h <;> subst h <;> decide
  · subst hx
    exact ⟨h1, h2, h4, h5⟩

theorem escapeXML_chars (s : Str) (x : Char) (hx : x ∈ escapeXML s) :
    x ≠ '<' ∧ x ≠ '>' ∧ x ≠ apos ∧ x ≠ dquote := by
  rw [escapeXML_eq_flatMap, List.mem_flatMap] at hx
  obtain ⟨c, _, hc⟩ := hx
  exact entityOf_chars c x hc

/-- An ampersand inside one entity is its first character. -/
theorem entityOf_amp (c : Char) (pre post : Str) (h : entityOf c = pre ++ '&' :: post) :
    pre = [] ∧ post ∈ entityTails := by
  have key : ∀ (t : Str), '&' ∉ t → '&' :: t = pre ++ '&' :: post → pre = [] ∧ post = t := by
    intro t ht e
    cases pre with
    | nil => simp at e; exact ⟨rfl, e.symm⟩
    | cons x pre =>
      simp at e
      exact absurd (e.2 ▸ (by simp : '&' ∈ pre ++ '&' :: post)) ht
  unfold entityOf at h
  split_ifs at h with h1 h2 h3 h4 h5
  · obtain ⟨hp, ht⟩ := key "lt;".toList (by decide) h
    exact ⟨hp, by rw [ht]; decide⟩
  · obtain ⟨hp, ht⟩ := key "gt;".toList (by decide) h
    exact ⟨hp, by rw [ht]; decide⟩
  · obtain ⟨hp, ht⟩ := key "amp;".toList (by decide) h
    exact ⟨hp, by rw [ht]; decide⟩
  · obtain ⟨hp, ht⟩ := key "apos;".toList (by decide) h
    exact ⟨hp, by rw [ht]; decide⟩
  · obtain ⟨hp, ht⟩ := key "quot;".toList (by decide) h
    exact ⟨hp, by rw [ht]; decide⟩
  · cases pre with
    | nil => simp at h; exact absurd h.1 h3
    | cons x pre => simp at h

theorem escapeXML_amp (s : Str) : ∀ (pre post : Str), escapeXML s = pre ++ '&' :: post →
    ∃ t ∈ entityTails, t <+: post := by
  induction s with
  | nil => intro pre post h; simp [escapeXML_nil] at h
  | cons c s ih =>
    intro pre post h
    rw [escapeXML_cons, List.append_eq_append_iff] at h
    rcases h with ⟨a, ha, hs⟩ | ⟨b, hb, hs⟩
    · exact ih a post hs
    · cases b with
      | nil => exact ih [] post (by simpa using hs.symm)
      | cons y b =>
        simp at hs
        obtain ⟨hy, hpost⟩ := hs
        subst hy
        obtain ⟨_, hb⟩ := entityOf_amp c pre b hb
        exact ⟨b, hb, hpost ▸ List.prefix_append _ _⟩

theorem ltGuarded_of_not_mem : ∀ (l : Str), '<' ∉ l → ltGuarded l = true
  | [], _ => rfl
  | [c], h => by
    have : c ≠ '<' := fun e => h (by simp [e])
    simp [ltGuarded, this]
  | a :: b :: r, h => by
    have ha : a ≠ '<' := fun e => h (by simp [e])
    have hr : '<' ∉ b :: r := fun e => h (List.mem_cons_of_mem _ e)
    simp [ltGuarded, ha, ltGuarded_of_not_mem (b :: r) hr]

theorem ltGuarded_append : ∀ (a b : Str), ltGuarded a = true → ltGuarded b = true →
    ltGuarded (a ++ b) = true
  | [], b, _, hb => by simpa using hb
  | [c], b, ha, hb => by
    have hc : c ≠ '<' := by simpa [ltGuarded] using ha
    cases b with
    | nil => simpa using ha
    | cons x r => simp [ltGuarded, hc, hb]
  | a :: b :: r, l, ha, hb => by
    simp only [ltGuarded, Bool.and_eq_true] at ha
    have ih := ltGuarded_append (b :: r) l ha.2 hb
    simp only [List.cons_append] at ih ⊢
    simp only [ltGuarded, Bool.and_eq_true]
    exact ⟨ha.1, ih⟩

theorem ltGuarded_escapeXML (s : Str) : ltGuarded (escapeXML s) = true :=
  ltGuarded_of_not_mem _ (fun h => (escapeXML_chars s '<' h).1 rfl)

theorem not_ltGuarded_of_infix : ∀ (pre rest : Str), ltGuarded (pre ++ '<' :: 's' :: rest) = false
  | [], rest => by simp [ltGuarded]
  | [c], rest => by
    have := not_ltGuarded_of_infix [] rest
    simp only [List.nil_append] at this
    simp [ltGuarded, this]
  | a :: b :: r, rest => by
    have := not_ltGuarded_of_infix (b :: r) rest
    simp only [List.cons_append] at this ⊢
    simp [ltGuarded, this]

set_option maxRecDepth 8000 in
theorem ltGuarded_errorPageHead : ltGuarded errorPageHead = true := by
  unfold errorPageHead
  refine ltGuarded_append _ _ (ltGuarded_append _ _ (ltGuarded_append _ _ (ltGuarded_append _ _
    (ltGuarded_append _ _ (ltGuarded_append _ _ (ltGuarded_append _ _ (ltGuarded_append _ _
    ?_ ?_) ?_) ?_) ?_) ?_) ?_) ?_) ?_ <;> decide

theorem ltGuarded_append_escapeXML (a s : Str) (ha : ltGuarded a = true) :
    ltGuarded (a ++ escapeXML s) = true :=
  ltGuarded_append a _ ha (ltGuarded_escapeXML s)

set_option maxRecDepth 8000 in
theorem ltGuarded_createErrorPageHTML (info : VersionInfo) (url errorMessage : Str) :
    ltGuarded (createErrorPageHTML info url errorMessage) = true := by
  have h1 := ltGuarded_append_escapeXML _ errorMessage ltGuarded_errorPageHead
  have h2 := ltGuarded_append_escapeXML _ url
    (ltGuarded_append _ "</pre>\n    <pre>URL: ".toList h1 (by decide))
  have h3 := ltGuarded_append_escapeXML _ info.version
    (ltGuarded_append _ "</pre>\n    <pre>Version ".toList h2 (by decide))
  have h4 := ltGuarded_append_escapeXML _ info.electron
    (ltGuarded_append _ ", Electron ".toList h3 (by decide))
  have h5 := ltGuarded_append_escapeXML _ info.platform
    (ltGuarded_append _ ", Platform ".toList h4 (by decide))
  have h6 := ltGuarded_append_escapeXML _ info.arch
    (ltGuarded_append _ " ".toList h5 (by decide))
  have h7 := ltGuarded_append_escapeXML _ info.dist
    (ltGuarded_append _ ", Distribution ".toList h6 (by decide))
  exact ltGuarded_append _ "</pre>\n  </body>\n</html>".toList h7 (by decide)

/-- C6. For every input string, `escapeXML` replaces each `<`, `>`, `&`, apostrophe
and double quote by `&lt;`, `&gt;`, `&amp;`, `&apos;` and `&quot;` and copies every
other character, in order: its output is the concatenation of `entityOf c` over
the characters `c` of the input.  So the output has no `<`, `>`, apostrophe or
double quote, and every `&` of the output is followed by the rest of one of the
five entities. -/
theorem C6_escapeXML (s : Str) :
    (entityOf '<' = "&lt;".toList ∧ entityOf '>' = "&gt;".toList ∧
      entityOf '&' = "&amp;".toList ∧ entityOf apos = "&apos;".toList ∧
      entityOf dquote = "&quot;".toList ∧
      ∀ c : Char, c ≠ '<' → c ≠ '>' → c ≠ '&' → c ≠ apos → c ≠ dquote → entityOf c = [c]) ∧
    escapeXML s = s.flatMap entityOf ∧
    (∀ x ∈ escapeXML s, x ≠ '<' ∧ x ≠ '>' ∧ x ≠ apos ∧ x ≠ dquote) ∧
    (∀ pre post : Str, escapeXML s = pre ++ '&' :: post → ∃ t ∈ entityTails, t <+: post) := by
  refine ⟨⟨by decide, by decide, by decide, by decide, by decide, ?_⟩,
    escapeXML_eq_flatMap s, escapeXML_chars s, escapeXML_amp s⟩
  intro c h1 h2 h3 h4 h5
  simp [entityOf, h1, h2, h3, h4, h5]

/-- C5. For every request URL, error message and version, platform, architecture
and distribution string, the page made by `createErrorPageHTML` does not contain
the text `<script>`; and when the request URL contains `<script>` the page
contains `&lt;script&gt;`. -/
theorem C5_errorPage_no_script (info : VersionInfo) (url errorMessage : Str) :
    ¬ ("<script>".toList <:+: createErrorPageHTML info url errorMessage) ∧
    ("<script>".toList <:+: url →
      "&lt;script&gt;".toList <:+: createErrorPageHTML info url errorMessage) := by
  constructor
  · rintro ⟨pre, post, h⟩
    have hg := ltGuarded_createErrorPageHTML info url errorMessage
    rw [← h] at hg
    have hb := not_ltGuarded_of_infix pre ("cript>".toList ++ post)
    have e : pre ++ "<script>".toList ++ post = pre ++ '<' :: 's' :: ("cript>".toList ++ post) := by
      simp
    rw [e, hb] at hg
    exact Bool.noConfusion hg
  · rintro ⟨pre, post, h⟩
    have e : escapeXML url =
        escapeXML pre ++ "&lt;script&gt;".toList ++ escapeXML post := by
      rw [← h, escapeXML_append, escapeXML_append]
      rfl
    unfold createErrorPageHTML
    rw [e]
    exact ⟨errorPageHead ++ escapeXML errorMessage ++ "</pre>\n    <pre>URL: ".toList ++
        escapeXML pre,
      escapeXML post ++ "</pre>\n    <pre>Version ".toList ++ escapeXML info.version ++
        ", Electron ".toList ++ escapeXML info.electron ++
        ", Platform ".toList ++ escapeXML info.platform ++
        " ".toList ++ escapeXML info.arch ++
        ", Distribution ".toList ++ escapeXML info.dist ++
        "</pre>\n  </body>\n</html>".toList, by simp only [List.append_assoc]⟩

/-- The page for the request `scheme://x/<script>alert(1)</script>`. -/
theorem C5_errorPage_witness :
    "<script>".toList <:+: "scheme://x/<script>alert(1)</script>".toList ∧
    "&lt;script&gt;".toList <:+: createErrorPageHTML ⟨[], [], [], [], []⟩
      "scheme://x/<script>alert(1)</script>".toList "Error: x".toList :=
  ⟨⟨"scheme://x/".toList, "alert(1)</script>".toList, by decide⟩,
   (C5_errorPage_no_script ⟨[], [], [], [], []⟩ _ _).2
     ⟨"scheme://x/".toList, "alert(1)</script>".toList, by decide⟩⟩

/-! ## Headers of the handlers -/

theorem Obj.get_set_self (o : Obj) (key value : Str) : (o.set key value).get key = some value := by
  induction o with
  | nil => simp [Obj.set, Obj.get]
  | cons kv o ih =>
    obtain ⟨k, v⟩ := kv
    by_cases h : k = key
    · simp [Obj.set, Obj.get, h]
    · simp [Obj.set, Obj.get, h, ih]

theorem Obj.get_set_of_ne (o : Obj) (key value k : Str) (h : key ≠ k) :
    (o.set key value).get k = o.get k := by
  induction o with
  | nil => simp [Obj.set, Obj.get, h]
  | cons kv o ih =>
    obtain ⟨k', v⟩ := kv
    by_cases h1 : k' = key
    · subst h1
      simp [Obj.set, Obj.get, h]
    · by_cases h2 : k' = k
      · subst h2
        simp [Obj.set, Obj.get, h1]
      · simp [Obj.set, Obj.get, h1, h2, ih]

theorem Obj.spread_errorPageHeaders (o : Obj) :
    o.spread errorPageHeaders =
      (o.set "content-type".toList "text/html".toList).set
        "content-security-policy".toList "default-src \x27none\x27".toList := rfl

/-- The header `x-frame-options` of the base headers. -/
theorem getBaseProtocolHeaders_frame (metadata : Metadata) :
    (getBaseProtocolHeaders metadata).get "x-frame-options".toList =
      if metadata.embeddable then none else some "DENY".toList := by
  unfold getBaseProtocolHeaders
  cases hcsp : truthyStr metadata.csp <;> cases hemb : metadata.embeddable <;>
    simp [Obj.get_set_self, Obj.get_set_of_ne, Obj.get, Obj.set]

/-- A response of the modern handler is the error response, or a status-200
response whose headers are the base headers plus the content type of the
resolved extension. -/
theorem createModernProtocolHandler_cases (env : Env) (metadata : Metadata) (url : Str) :
    (∃ e, createModernProtocolHandler env metadata url = createErrorResponse env metadata url e) ∨
    (∃ r mimeType body, resolveRequest env metadata url = .ok r ∧
      mimeTypeOf r.fileExtension = some mimeType ∧
      createModernProtocolHandler env metadata url =
        { status := 200,
          headers := (getBaseProtocolHeaders metadata).set "content-type".toList mimeType,
          body := body }) := by
  unfold createModernProtocolHandler modernTry
  cases hr : resolveRequest env metadata url with
  | error e => exact Or.inl ⟨e, by simp [bind, Except.bind]⟩
  | ok r =>
    cases hm : mimeTypeOf r.fileExtension with
    | none =>
      exact Or.inl ⟨invalidFileExtension r.fileExtension,
        by simp [bind, Except.bind, hm, pure, Except.pure]⟩
    | some mimeType =>
      simp only [bind, Except.bind, hm]
      by_cases hb : metadata.brotli = true
      · simp only [hb, if_true]
        by_cases hx : env.existsSync (r.resolved ++ ".br".toList) = true
        · simp only [hx, if_true]
          cases hf : env.netFetch (r.resolved ++ ".br".toList) with
          | error e => exact Or.inl ⟨e, by simp⟩
          | ok f =>
            cases hok : f.ok with
            | false =>
              exact Or.inl ⟨fileNotFound (r.resolved ++ ".br".toList),
                by simp [hok, throw, throwThe, MonadExceptOf.throw]⟩
            | true =>
              cases hd : env.brotliDecompress f.body with
              | error e => exact Or.inl ⟨e, by simp [hok, hd, pure, Except.pure]⟩
              | ok d =>
                exact Or.inr ⟨r, mimeType, .buffer d, rfl, hm,
                  by simp [hok, hd, pure, Except.pure]⟩
        · simp only [hx]
          cases hf : env.netFetch r.resolved with
          | error e => exact Or.inl ⟨e, by simp⟩
          | ok f =>
            cases hok : f.ok with
            | false =>
              exact Or.inl ⟨fileNotFound r.resolved,
                by simp [hok, throw, throwThe, MonadExceptOf.throw]⟩
            | true =>
              exact Or.inr ⟨r, mimeType, .stream f.body, rfl, hm,
                by simp [hok, pure, Except.pure]⟩
      · simp only [hb]
        cases hf : env.netFetch r.resolved with
        | error e => exact Or.inl ⟨e, by simp⟩
        | ok f =>
          cases hok : f.ok with
          | false =>
            exact Or.inl ⟨fileNotFound r.resolved,
              by simp [hok, throw, throwThe, MonadExceptOf.throw]⟩
          | true =>
            exact Or.inr ⟨r, mimeType, .stream f.body, rfl, hm,
              by simp [hok, pure, Except.pure]⟩

/-- A result of the legacy buffer handler is the error page, or a result without
status code whose headers are the base headers plus the content type of the
resolved extension. -/
theorem createLegacyBrotliProtocolHandler_cases (env : Env) (metadata : Metadata) (url : Str) :
    (∃ e, createLegacyBrotliProtocolHandler env metadata url =
      returnErrorPage env metadata url e) ∨
    (∃ r mimeType data, resolveRequest env metadata url = .ok r ∧
      mimeTypeOf r.fileExtension = some mimeType ∧
      createLegacyBrotliProtocolHandler env metadata url =
        { data := .buffer data, statusCode := none,
          headers := (getBaseProtocolHeaders metadata).set "content-type".toList mimeType }) := by
  unfold createLegacyBrotliProtocolHandler legacyBrotliTry
  cases hr : resolveRequest env metadata url with
  | error e => exact Or.inl ⟨e, by simp [bind, Except.bind]⟩
  | ok r =>
    cases hm : mimeTypeOf r.fileExtension with
    | none =>
      exact Or.inl ⟨invalidFileExtension r.fileExtension,
        by simp [bind, Except.bind, hm, pure, Except.pure]⟩
    | some mimeType =>
      simp only [bind, Except.bind, hm]
      by_cases hx : env.existsSync (r.resolved ++ ".br".toList) = true
      · simp only [hx, if_true]
        cases hf : env.readFile (r.resolved ++ ".br".toList) with
        | error e => exact Or.inl ⟨e, by simp⟩
        | ok f =>
          cases hd : env.brotliDecompress f with
          | error e => exact Or.inl ⟨e, by simp [hd]⟩
          | ok d =>
            exact Or.inr ⟨r, mimeType, d, rfl, hm, by simp [hd, pure, Except.pure]⟩
      · simp only [hx]
        cases hf : env.readFile r.resolved with
        | error e => exact Or.inl ⟨e, by simp⟩
        | ok f => exact Or.inr ⟨r, mimeType, f, rfl, hm, by simp [pure, Except.pure]⟩

/-- A result of the legacy file handler is one of the two error results, or the
resolved path with the base headers plus the content type of its extension. -/
theorem createLegacyFileProtocolHandler_cases (env : Env) (metadata : Metadata) (url : Str) :
    (∃ errorPage, createLegacyFileProtocolHandler env metadata url =
      returnErrorResponse env metadata errorPage) ∨
    (∃ r mimeType, resolveRequest env metadata url = .ok r ∧
      mimeTypeOf r.fileExtension = some mimeType ∧
      createLegacyFileProtocolHandler env metadata url =
        { path := r.resolved, status := none, statusCode := none,
          headers := (getBaseProtocolHeaders metadata).set "content-type".toList mimeType }) := by
  unfold createLegacyFileProtocolHandler
  cases hr : resolveRequest env metadata url with
  | error e => exact Or.inl ⟨_, rfl⟩
  | ok r =>
    cases hm : mimeTypeOf r.fileExtension with
    | none => exact Or.inl ⟨"invalid-extension".toList, by simp [hm]⟩
    | some mimeType => exact Or.inr ⟨r, mimeType, rfl, hm, by simp [hm]⟩

theorem frameDenied_set_contentType (metadata : Metadata) (mimeType : Str) :
    frameDenied ((getBaseProtocolHeaders metadata).set "content-type".toList mimeType) ↔
      metadata.embeddable ≠ true := by
  unfold frameDenied
  rw [Obj.get_set_of_ne _ _ _ _ (by decide), getBaseProtocolHeaders_frame]
  cases metadata.embeddable <;> simp

/-- C3. For every descriptor and every request that is served successfully, by the
modern handler (status 200), the legacy buffer handler or the legacy file handler
(no error status), the response headers contain `x-frame-options: DENY` if and
only if the descriptor's `embeddable` flag is not true.  In particular every
success response of `tw-desktop-settings` carries the header and no success
response of `tw-editor` does. -/
theorem C3_frame_options (env : Env) (metadata : Metadata) (url : Str) :
    FrameRule env metadata url (metadata.embeddable ≠ true) ∧
    (∀ cwd dirname md, schemeMetadata cwd dirname "tw-desktop-settings" = some md →
      FrameRule env md url True) ∧
    (∀ cwd dirname md, schemeMetadata cwd dirname "tw-editor" = some md →
      FrameRule env md url False) := by
  have general : ∀ md : Metadata, FrameRule env md url (md.embeddable ≠ true) := by
    intro md
    refine ⟨fun hs => ?_, fun hs => ?_, fun hs => ?_⟩
    · rcases createModernProtocolHandler_cases env md url with ⟨e, h⟩ | ⟨r, m, b, _, _, h⟩
      · rw [h] at hs; simp [createErrorResponse] at hs
      · rw [h]; exact frameDenied_set_contentType md m
    · rcases createLegacyBrotliProtocolHandler_cases env md url with ⟨e, h⟩ | ⟨r, m, b, _, _, h⟩
      · rw [h] at hs; simp [returnErrorPage] at hs
      · rw [h]; exact frameDenied_set_contentType md m
    · rcases createLegacyFileProtocolHandler_cases env md url with ⟨e, h⟩ | ⟨r, m, _, _, h⟩
      · rw [h] at hs; simp [returnErrorResponse] at hs
      · rw [h]; exact frameDenied_set_contentType md m
  refine ⟨general metadata, ?_, ?_⟩
  · intro cwd dirname md h
    have hmd : md.embeddable = false := by
      simp [schemeMetadata, FILE_SCHEMES, List.find?] at h
      rw [← h]
    have := general md
    simpa [hmd] using this
  · intro cwd dirname md h
    have hmd : md.embeddable = true := by
      simp [schemeMetadata, FILE_SCHEMES, List.find?] at h
      rw [← h]
    have := general md
    simpa [hmd] using this

/-- A request of `tw-desktop-settings` that is served with status 200 and carries
`x-frame-options: DENY`. -/
theorem C3_frame_options_witness :
    (createModernProtocolHandler sampleEnv (sampleMetadata "tw-desktop-settings")
      "tw-desktop-settings://./index.html".toList).status = 200 ∧
    frameDenied (createModernProtocolHandler sampleEnv (sampleMetadata "tw-desktop-settings")
      "tw-desktop-settings://./index.html".toList).headers :=
  ⟨by decide,
   ((C3_frame_options sampleEnv (sampleMetadata "tw-desktop-settings")
      "tw-desktop-settings://./index.html".toList).1.1 (by decide)).2 (by decide)⟩

theorem mimeTypeOf_eq_none (fileExtension : Str) (h : MIME_TYPES.get fileExtension = none) :
    mimeTypeOf fileExtension = none := by
  simp [mimeTypeOf, h, truthyStr]

/-- C4. For every descriptor and every request whose resolved file extension has no
entry in the MIME table, each of the three handlers delivers its error result:
the modern handler the status-400 error page, the legacy buffer handler the error
page with status code 400, the legacy file handler the `invalid-extension` error
result; the content type of each is that of the error page, `text/html`.  The
empty extension, an extension in other letter case (`.HTML`) and `.unknownext`
have no entry. -/
theorem C4_unknown_extension (env : Env) (metadata : Metadata) (url : Str) (r : Resolved)
    (hr : resolveRequest env metadata url = .ok r)
    (hm : MIME_TYPES.get r.fileExtension = none) :
    (createModernProtocolHandler env metadata url =
        createErrorResponse env metadata url (invalidFileExtension r.fileExtension) ∧
      (createModernProtocolHandler env metadata url).status = 400 ∧
      (createModernProtocolHandler env metadata url).headers.get "content-type".toList =
        some "text/html".toList) ∧
    (createLegacyBrotliProtocolHandler env metadata url =
        returnErrorPage env metadata url (invalidFileExtension r.fileExtension) ∧
      (createLegacyBrotliProtocolHandler env metadata url).statusCode = some 400 ∧
      (createLegacyBrotliProtocolHandler env metadata url).headers.get "content-type".toList =
        some "text/html".toList) ∧
    (createLegacyFileProtocolHandler env metadata url =
        returnErrorResponse env metadata "invalid-extension".toList ∧
      (createLegacyFileProtocolHandler env metadata url).status = some 400 ∧
      (createLegacyFileProtocolHandler env metadata url).headers.get "content-type".toList =
        some "text/html".toList) ∧
    MIME_TYPES.get [] = none ∧ MIME_TYPES.get ".HTML".toList = none ∧
    MIME_TYPES.get ".unknownext".toList = none := by
  have hm' := mimeTypeOf_eq_none _ hm
  have hct : ∀ o : Obj, (o.spread errorPageHeaders).get "content-type".toList =
      some "text/html".toList := by
    intro o
    rw [Obj.spread_errorPageHeaders, Obj.get_set_of_ne _ _ _ _ (by decide), Obj.get_set_self]
  have h1 : createModernProtocolHandler env metadata url =
      createErrorResponse env metadata url (invalidFileExtension r.fileExtension) := by
    simp [createModernProtocolHandler, modernTry, hr, hm', bind, Except.bind, pure, Except.pure]
  have h2 : createLegacyBrotliProtocolHandler env metadata url =
      returnErrorPage env metadata url (invalidFileExtension r.fileExtension) := by
    simp [createLegacyBrotliProtocolHandler, legacyBrotliTry, hr, hm', bind, Except.bind, pure,
      Except.pure]
  have h3 : createLegacyFileProtocolHandler env metadata url =
      returnErrorResponse env metadata "invalid-extension".toList := by
    simp [createLegacyFileProtocolHandler, hr, hm']
  refine ⟨⟨h1, ?_, ?_⟩, ⟨h2, ?_, ?_⟩, ⟨h3, ?_, ?_⟩, by decide, by decide, by decide⟩
  · rw [h1]; rfl
  · rw [h1]; exact hct _
  · rw [h2]; rfl
  · rw [h2]; exact hct _
  · rw [h3]; rfl
  · rw [h3]; exact hct _

/-- The request `/file.unknownext` on `tw-library`: resolved, and refused by the
modern handler with status 400. -/
theorem C4_unknown_extension_witness :
    resolveRequest sampleEnv (sampleMetadata "tw-library") "tw-library://./file.unknownext".toList =
      .ok ⟨"tw-library".toList, "/app/dist-library-files/file.unknownext".toList,
        ".unknownext".toList⟩ ∧
    (createModernProtocolHandler sampleEnv (sampleMetadata "tw-library")
      "tw-library://./file.unknownext".toList).status = 400 :=
  ⟨by decide,
   (C4_unknown_extension sampleEnv (sampleMetadata "tw-library")
      "tw-library://./file.unknownext".toList
      ⟨"tw-library".toList, "/app/dist-library-files/file.unknownext".toList,
        ".unknownext".toList⟩ (by decide) (by decide)).1.2.1⟩

/-! ## Paths: segments and normalisation -/

theorem splitSlash_ne_nil (p : Str) : splitSlash p ≠ [] := by
  cases p with
  | nil => simp [splitSlash]
  | cons c cs =>
    unfold splitSlash
    split_ifs
    · simp
    · split <;> simp

theorem splitSlash_append_slash (a b : Str) :
    splitSlash (a ++ '/' :: b) = splitSlash a ++ splitSlash b := by
  induction a with
  | nil => simp [splitSlash]
  | cons c a ih =>
    by_cases hc : c = '/'
    · simp [splitSlash, hc, ih]
    · have hne := splitSlash_ne_nil a
      cases hs : splitSlash a with
      | nil => exact absurd hs hne
      | cons s ss => simp [splitSlash, hc, ih, hs]

theorem splitSlash_of_not_mem (s : Str) (h : '/' ∉ s) : splitSlash s = [s] := by
  induction s with
  | nil => rfl
  | cons c s ih =>
    have hc : c ≠ '/' := fun e => h (by simp [e])
    have hs : '/' ∉ s := fun e => h (List.mem_cons_of_mem _ e)
    simp [splitSlash, hc, ih hs]

theorem splitSlash_no_slash (p : Str) : ∀ s ∈ splitSlash p, '/' ∉ s := by
  induction p with
  | nil => simp [splitSlash]
  | cons c p ih =>
    by_cases hc : c = '/'
    · intro s hs
      simp [splitSlash, hc] at hs
      rcases hs with h | h
      · simp [h]
      · exact ih s h
    · have hne := splitSlash_ne_nil p
      cases hsp : splitSlash p with
      | nil => exact absurd hsp hne
      | cons t ts =>
        rw [hsp] at ih
        intro s hs
        simp [splitSlash, hc, hsp] at hs
        rcases hs with h | h
        · subst h
          have := ih t (by simp)
          simp [this, Ne.symm hc]
        · exact ih s (by simp [h])

theorem splitSlash_dirString (R : List Str) (h : ∀ s ∈ R, '/' ∉ s) :
    splitSlash (dirString R) = R ++ [[]] := by
  induction R with
  | nil => rfl
  | cons s R ih =>
    have hs : '/' ∉ s := h s (by simp)
    have hR : ∀ t ∈ R, '/' ∉ t := fun t ht => h t (by simp [ht])
    simp [dirString, splitSlash_append_slash, splitSlash_of_not_mem s hs, ih hR]

theorem foldl_normalizeStep_noDotDot (allow : Bool) (L : List Str) :
    ∀ (acc : List Str), (∀ s ∈ L, s ≠ ['.', '.']) →
      L.foldl (normalizeStep allow) acc = (keptSegments L).reverse ++ acc := by
  induction L with
  | nil => intro acc _; simp [keptSegments]
  | cons s L ih =>
    intro acc h
    have hs : s ≠ ['.', '.'] := h s (by simp)
    have hL : ∀ t ∈ L, t ≠ ['.', '.'] := fun t ht => h t (by simp [ht])
    rw [List.foldl_cons, ih _ hL]
    by_cases h1 : s = []
    · simp [normalizeStep, keptSegments, h1]
    · by_cases h2 : s = ['.']
      · simp [normalizeStep, keptSegments, h2]
      · have : keptSegments (s :: L) = s :: keptSegments L := by
          simp [keptSegments, h1, h2]
        simp [normalizeStep, h1, h2, hs, this]

theorem keptSegments_of_clean (L : List Str) (h : ∀ s ∈ L, CleanSeg s) : keptSegments L = L := by
  unfold keptSegments
  rw [List.filter_eq_self]
  intro s hs
  obtain ⟨h1, h2, _, _⟩ := h s hs
  simp [h1, h2]

theorem normalizeStep_clean (acc : List Str) (seg : Str) (hacc : ∀ s ∈ acc, CleanSeg s)
    (hseg : '/' ∉ seg) : ∀ s ∈ normalizeStep false acc seg, CleanSeg s := by
  unfold normalizeStep
  by_cases h1 : seg = [] ∨ seg = ['.']
  · simpa [h1] using hacc
  · rw [if_neg h1]
    by_cases h2 : seg = ['.', '.']
    · rw [if_pos h2]
      cases acc with
      | nil => simp
      | cons top rest =>
        have hrest : ∀ s ∈ rest, CleanSeg s := fun s hs => hacc s (by simp [hs])
        by_cases h3 : top = ['.', '.']
        · simpa [h3] using hacc
        · simpa [h3] using hrest
    · rw [if_neg h2]
      intro s hs
      simp at hs
      rcases hs with h | h
      · subst h
        exact ⟨fun e => h1 (Or.inl e), fun e => h1 (Or.inr e), h2, hseg⟩
      · exact hacc s h

theorem foldl_normalizeStep_clean (L : List Str) (hL : ∀ s ∈ L, '/' ∉ s) :
    ∀ (acc : List Str), (∀ s ∈ acc, CleanSeg s) →
      ∀ s ∈ L.foldl (normalizeStep false) acc, CleanSeg s := by
  induction L with
  | nil => intro acc h; simpa using h
  | cons t L ih =>
    intro acc h
    rw [List.foldl_cons]
    exact ih (fun s hs => hL s (by simp [hs])) _
      (normalizeStep_clean acc t h (hL t (by simp)))

/-- The segments of an absolute path after normalisation are clean. -/
theorem normalizeSegments_clean (path : Str) : ∀ s ∈ normalizeSegments path false, CleanSeg s := by
  intro s hs
  unfold normalizeSegments at hs
  rw [List.mem_reverse] at hs
  exact foldl_normalizeStep_clean _ (splitSlash_no_slash path) [] (by simp) s hs

theorem joinSlash_append_of_ne_nil (A C : List Str) (hC : C ≠ []) :
    joinSlash (A ++ C) = dirString A ++ joinSlash C := by
  induction A with
  | nil => rfl
  | cons s A ih =>
    cases hAC : A ++ C with
    | nil => simp at hAC; exact absurd hAC.2 hC
    | cons t ts =>
      rw [List.cons_append, hAC, joinSlash, ← hAC, ih]
      simp [dirString]

theorem dirString_eq_joinSlash (R : List Str) (h : R ≠ []) :
    dirString R = joinSlash R ++ ['/'] := by
  induction R with
  | nil => exact absurd rfl h
  | cons s R ih =>
    cases R with
    | nil => simp [dirString, joinSlash]
    | cons t ts =>
      rw [dirString, ih (by simp), joinSlash]
      simp

theorem joinSlash_ne_nil (C : List Str) (hC : C ≠ []) (h : ∀ s ∈ C, s ≠ []) :
    joinSlash C ≠ [] := by
  cases C with
  | nil => exact absurd rfl hC
  | cons s C =>
    have hs : s ≠ [] := h s (by simp)
    cases C with
    | nil => simpa [joinSlash] using hs
    | cons t ts => simp [joinSlash, hs]

theorem normalizeSegments_append_slashes (root : Str) :
    normalizeSegments (root ++ '/' :: ['/']) false = normalizeSegments root false := by
  unfold normalizeSegments
  rw [splitSlash_append_slash, List.foldl_append]
  simp [splitSlash, normalizeStep]

/-- The root prefix of an absolute root: `/`, then every segment of the
normalised root followed by `/`. -/
theorem join_root_slash (root : Str) (habs : root.head? = some '/') :
    join root ['/'] = '/' :: dirString (normalizeSegments root false) := by
  obtain ⟨tl, rfl⟩ : ∃ tl, root = '/' :: tl := by
    cases root with
    | nil => simp at habs
    | cons c tl => simp at habs; exact ⟨tl, by rw [habs]⟩
  have hclean := normalizeSegments_clean ('/' :: tl)
  have hseg := normalizeSegments_append_slashes ('/' :: tl)
  simp only [List.cons_append] at hseg
  have hlast : ('/' :: (tl ++ ['/', '/'])).getLast? = some '/' := by
    rw [show '/' :: (tl ++ ['/', '/']) = ('/' :: tl ++ ['/']) ++ ['/'] by simp]
    exact List.getLast?_append_of_ne_nil _ (by simp) |>.trans (by simp)
  unfold join
  simp only [List.cons_ne_nil, if_false, List.cons_append]
  unfold normalize normalizeString
  simp only [List.cons_ne_nil, if_false, List.head?_cons, hseg, hlast, beq_self_eq_true,
    Bool.not_true, if_true]
  by_cases hR : normalizeSegments ('/' :: tl) false = []
  · simp [hR, joinSlash, dirString]
  · have hj := joinSlash_ne_nil _ hR (fun s hs => (hclean s hs).1)
    simp [hj, dirString_eq_joinSlash _ hR]

/-- Joining a path without `..` segment to a root prefix appends its kept
segments, and the trailing `/` if it has one. -/
theorem join_noDotDot (R : List Str) (hR : ∀ s ∈ R, CleanSeg s) (p : Str)
    (hp : ∀ s ∈ splitSlash p, s ≠ ['.', '.']) (hC : keptSegments (splitSlash p) ≠ []) :
    join ('/' :: dirString R) p =
      '/' :: dirString R ++ joinSlash (keptSegments (splitSlash p)) ++
        (if p.getLast? = some '/' then ['/'] else []) := by
  have hpne : p ≠ [] := by
    rintro rfl
    exact hC (by decide)
  have hsplit : splitSlash ('/' :: (dirString R ++ '/' :: p)) =
      [] :: (R ++ [[]] ++ splitSlash p) := by
    rw [splitSlash, if_pos rfl, splitSlash_append_slash,
      splitSlash_dirString R (fun s hs => (hR s hs).2.2.2)]
  have hnd : ∀ s ∈ ([] : Str) :: (R ++ [[]] ++ splitSlash p), s ≠ ['.', '.'] := by
    intro s hs
    simp only [List.mem_cons, List.mem_append, List.mem_singleton] at hs
    rcases hs with h | (h | h) | h
    · rw [h]; decide
    · exact (hR s h).2.2.1
    · simp at h; rw [h]; decide
    · exact hp s h
  have hkept : keptSegments ([] :: (R ++ [[]] ++ splitSlash p)) =
      R ++ keptSegments (splitSlash p) := by
    have h1 := keptSegments_of_clean R hR
    unfold keptSegments at h1 ⊢
    simp [List.filter_append, h1]
  have hsegs : normalizeSegments ('/' :: (dirString R ++ '/' :: p)) false =
      R ++ keptSegments (splitSlash p) := by
    unfold normalizeSegments
    rw [hsplit, foldl_normalizeStep_noDotDot false _ [] hnd, hkept]
    simp
  have hkne : ∀ s ∈ keptSegments (splitSlash p), s ≠ [] := by
    intro s hs
    unfold keptSegments at hs
    simp at hs
    exact hs.2.1
  have hj := joinSlash_ne_nil _ hC hkne
  have hlast : ('/' :: (dirString R ++ '/' :: p)).getLast? = p.getLast? := by
    rw [show '/' :: (dirString R ++ '/' :: p) = ('/' :: dirString R ++ ['/']) ++ p by simp]
    exact List.getLast?_append_of_ne_nil _ hpne
  unfold join
  simp only [List.cons_ne_nil, if_false, hpne, List.cons_append]
  unfold normalize normalizeString
  simp only [List.cons_ne_nil, if_false, List.head?_cons, beq_self_eq_true, Bool.not_true, hsegs,
    joinSlash_append_of_ne_nil R _ hC, hlast, if_true]
  have hne : dirString R ++ joinSlash (keptSegments (splitSlash p)) ≠ [] := by
    simp [hj]
  by_cases ht : p.getLast? = some '/'
  · simp [hne, ht]
  · simp [hne, ht]

/-! ## The resolver -/

/-- The root prefix, `path.join(metadata.root, '/')`, ends in `/`. -/
theorem join_slash_getLast (root : Str) : (join root ['/']).getLast? = some '/' := by
  unfold join
  by_cases h : root = []
  · subst h; decide
  · have hl : (root ++ ['/', '/']).getLast? = some '/' := by
      rw [show root ++ ['/', '/'] = (root ++ ['/']) ++ ['/'] by simp]
      exact List.getLast?_append_of_ne_nil _ (by simp) |>.trans (by simp)
    have hne : root ++ ['/', '/'] ≠ [] := by simp
    simp only [h, if_false, List.cons_ne_nil]
    unfold normalize
    simp only [hne, if_false, hl, beq_self_eq_true, if_true]
    split_ifs
    · simp
    · simp
    · rw [← List.cons_append]
      exact List.getLast?_append_of_ne_nil _ (by simp) |>.trans (by simp)
    · exact List.getLast?_append_of_ne_nil _ (by simp) |>.trans (by simp)

theorem searchCandidates_some (root : Str) (brotli : Bool) (existsSync : Str → Bool) :
    ∀ (cs : List Str) (r : Str), (searchCandidates root brotli existsSync cs).1 = some r →
      ∃ c ∈ cs, r = join root c ∧ startsWith r root = true := by
  intro cs
  induction cs with
  | nil => intro r h; simp [searchCandidates] at h
  | cons c cs ih =>
    intro r h
    unfold searchCandidates at h
    simp only at h
    by_cases hs : startsWith (join root c) root = true
    · simp only [hs, Bool.not_true] at h
      by_cases hp : (probeCandidate brotli existsSync (join root c)).1 = true
      · simp [hp] at h
        exact ⟨c, by simp, h.symm, h ▸ hs⟩
      · simp [hp] at h
        obtain ⟨c', hc', h'⟩ := ih r h
        exact ⟨c', by simp [hc'], h'⟩
    · simp [hs] at h
      obtain ⟨c', hc', h'⟩ := ih r h
      exact ⟨c', by simp [hc'], h'⟩

theorem searchCandidates_of_escape (root : Str) (brotli : Bool) (existsSync : Str → Bool) :
    ∀ (cs : List Str), (∀ c ∈ cs, startsWith (join root c) root = false) →
      searchCandidates root brotli existsSync cs = (none, []) := by
  intro cs
  induction cs with
  | nil => intro _; rfl
  | cons c cs ih =>
    intro h
    unfold searchCandidates
    simp [h c (by simp), ih (fun c' hc' => h c' (by simp [hc']))]

theorem searchCandidates_of_absent (root : Str) (brotli : Bool) (existsSync : Str → Bool) :
    ∀ (cs : List Str),
      (∀ c ∈ cs, existsSync (join root c) = false ∧
        (brotli = true → existsSync (join root c ++ ".br".toList) = false)) →
      (searchCandidates root brotli existsSync cs).1 = none := by
  intro cs
  induction cs with
  | nil => intro _; rfl
  | cons c cs ih =>
    intro h
    have hc := h c (by simp)
    have hrest := ih (fun c' hc' => h c' (by simp [hc']))
    have hprobe : (probeCandidate brotli existsSync (join root c)).1 = false := by
      unfold probeCandidate
      cases hb : brotli with
      | false => simp [hc.1]
      | true =>
        have h2 : existsSync (join root c ++ ['.', 'b', 'r']) = false := hc.2 hb
        simp [hc.1, h2]
    unfold searchCandidates
    by_cases hs : startsWith (join root c) root = true
    · simp [hs, hprobe, hrest]
    · simp [hs, hrest]

theorem candidatePathnames_head (scheme pathname : Str) :
    ∃ rest, candidatePathnames scheme pathname = pathname :: rest := by
  unfold candidatePathnames
  split_ifs
  · exact ⟨_, rfl⟩
  · exact ⟨_, rfl⟩

/-- C1, as amended. For every descriptor, parsed request URL and file-system state,
`resolveRequestPath` either returns a `resolved` path that starts with the root
prefix (`metadata.root` joined with a trailing `/`, a prefix that ends in `/`, so
that a sibling directory whose name begins with the root's name is excluded), or
throws; what it throws is `Path traversal blocked`, or the error of the URL
constructor when the directory index cannot be resolved against the request
URL. -/
theorem C1_resolved_under_root (other : Str → URL → Except JsError Str)
    (existsSync : Str → Bool) (metadata : Metadata) (parsedURL : URL) :
    (join metadata.root ['/']).getLast? = some '/' ∧
    match (resolveRequestPath other existsSync metadata parsedURL).1 with
    | .ok r => join metadata.root ['/'] <+: r.resolved
    | .error e => e = pathTraversalBlocked ∨ indexedPathname other metadata parsedURL = .error e := by
  refine ⟨join_slash_getLast _, ?_⟩
  unfold resolveRequestPath
  cases hadj : adjustedPathname other metadata parsedURL with
  | error e =>
    simp only
    right
    unfold adjustedPathname at hadj
    cases hi : indexedPathname other metadata parsedURL with
    | error e' => rw [hi] at hadj; simp [Except.map] at hadj; rw [hadj]
    | ok v => rw [hi] at hadj; simp [Except.map] at hadj
  | ok pathname =>
    simp only
    unfold resolveFrom
    simp only
    split_ifs with hs
    · simp
    · exact List.isPrefixOf_iff_prefix.mp (by simpa [startsWith] using hs)

/-- C1 as stated fails: on `tw-extensions`, whose directory index is `index.html`,
the opaque-path URL `tw-extensions:a/` makes `resolveRequestPath` throw the URL
constructor's `TypeError`: it neither throws `Path traversal blocked` nor returns
a path. -/
theorem C1_counterexample :
    (resolveRequestPath sampleEnv.newURLRelative (fun _ => false) (sampleMetadata "tw-extensions")
        ⟨"tw-extensions:".toList, "a/".toList⟩).1 = .error JsError.invalidURL ∧
    JsError.invalidURL ≠ pathTraversalBlocked := by
  decide

/-- C2 as stated fails: the code has no test for `..` segments.  On `tw-library`
the URL `tw-library:a/../b.txt`, whose pathname has a `..` segment, resolves to
`b.txt` under the root, after two existence checks. -/
theorem C2_counterexample :
    ['.', '.'] ∈ splitSlash "a/../b.txt".toList ∧
    resolveRequestPath sampleEnv.newURLRelative (fun _ => false) (sampleMetadata "tw-library")
        ⟨"tw-library:".toList, "a/../b.txt".toList⟩ =
      (.ok ⟨"tw-library".toList, "/app/dist-library-files/b.txt".toList, ".txt".toList⟩,
       ["/app/dist-library-files/b.txt.br".toList, "/app/dist-library-files/b.txt".toList]) := by
  decide

/-- C2, as amended. For every request whose `..` segments take every candidate out
of root (the joined candidate does not start with the root prefix),
`resolveRequestPath` throws `Path traversal blocked` and gives no path to
`fs.existsSync`. -/
theorem C2_escaping_path_blocked (other : Str → URL → Except JsError Str)
    (existsSync : Str → Bool) (metadata : Metadata) (parsedURL : URL) (pathname : Str)
    (hp : adjustedPathname other metadata parsedURL = .ok pathname)
    (hesc : ∀ c ∈ candidatePathnames (schemeOf parsedURL) pathname,
      startsWith (join (join metadata.root ['/']) c) (join metadata.root ['/']) = false) :
    resolveRequestPath other existsSync metadata parsedURL = (.error pathTraversalBlocked, []) := by
  unfold resolveRequestPath
  rw [hp]
  simp only
  unfold resolveFrom
  simp only
  rw [searchCandidates_of_escape _ _ _ _ hesc]
  obtain ⟨rest, hrest⟩ := candidatePathnames_head (schemeOf parsedURL) pathname
  have h0 := hesc pathname (by rw [hrest]; simp)
  simp [h0]

/-- The request `tw-library:../b.txt` is blocked, without existence check. -/
theorem C2_escaping_path_blocked_witness :
    ['.', '.'] ∈ splitSlash "../b.txt".toList ∧
    resolveRequestPath sampleEnv.newURLRelative (fun _ => true) (sampleMetadata "tw-library")
        ⟨"tw-library:".toList, "../b.txt".toList⟩ = (.error pathTraversalBlocked, []) :=
  ⟨by decide,
   C2_escaping_path_blocked sampleEnv.newURLRelative (fun _ => true) (sampleMetadata "tw-library")
     ⟨"tw-library:".toList, "../b.txt".toList⟩ "../b.txt".toList (by decide) (by decide)⟩

/-- C10. For every descriptor and request for which no candidate path (nor, on a
brotli scheme, its `.br` file) exists on disk, `resolveRequestPath` returns the
primary candidate, root joined with the index- and extension-adjusted pathname,
provided that path lies under root. -/
theorem C10_fallback_primary (other : Str → URL → Except JsError Str)
    (existsSync : Str → Bool) (metadata : Metadata) (parsedURL : URL) (pathname : Str)
    (hp : adjustedPathname other metadata parsedURL = .ok pathname)
    (habsent : ∀ c ∈ candidatePathnames (schemeOf parsedURL) pathname,
      existsSync (join (join metadata.root ['/']) c) = false ∧
      (metadata.brotli = true →
        existsSync (join (join metadata.root ['/']) c ++ ".br".toList) = false))
    (hunder : startsWith (join (join metadata.root ['/']) pathname)
      (join metadata.root ['/']) = true) :
    (resolveRequestPath other existsSync metadata parsedURL).1 =
      .ok { scheme := schemeOf parsedURL,
            resolved := join (join metadata.root ['/']) pathname,
            fileExtension := extname (join (join metadata.root ['/']) pathname) } := by
  unfold resolveRequestPath
  rw [hp]
  simp only
  unfold resolveFrom
  simp only
  rw [searchCandidates_of_absent _ _ _ _ habsent]
  simp [hunder]

/-- The request `/missing.js` on `tw-library`, on a disk without files, resolves to
`missing.js` under the root. -/
theorem C10_fallback_primary_witness :
    (resolveRequestPath sampleEnv.newURLRelative (fun _ => false) (sampleMetadata "tw-library")
        ⟨"tw-library:".toList, "/missing.js".toList⟩).1 =
      .ok ⟨"tw-library".toList, "/app/dist-library-files/missing.js".toList, ".js".toList⟩ :=
  C10_fallback_primary sampleEnv.newURLRelative (fun _ => false) (sampleMetadata "tw-library")
    ⟨"tw-library:".toList, "/missing.js".toList⟩ "/missing.js".toList (by decide)
    (by decide) (by decide)

/-- The extension of a path is that of its last segment. -/
theorem extname_append_slash (a b : Str) (hb : '/' ∉ b) (hne : b ≠ []) :
    extname (a ++ '/' :: b) = extname b := by
  have hall : ∀ x ∈ b.reverse, (x != '/') = true := by
    intro x hx
    have : x ≠ '/' := fun e => hb (e ▸ List.mem_reverse.mp hx)
    simpa using this
  obtain ⟨x, xs, hrev⟩ : ∃ x xs, b.reverse = x :: xs := by
    cases h : b.reverse with
    | nil => exact absurd (List.reverse_eq_nil_iff.mp h) hne
    | cons x xs => exact ⟨x, xs, rfl⟩
  have hx : x ≠ '/' := by
    have := hall x (by rw [hrev]; simp)
    simpa using this
  have hd : ∀ rest : Str, List.dropWhile (fun c => c == '/') (x :: rest) = x :: rest := by
    intro rest
    simp [List.dropWhile_cons, hx]
  have h1 : ((a ++ '/' :: b).reverse.dropWhile (· == '/')).takeWhile (· != '/') = b.reverse := by
    rw [List.reverse_append, List.reverse_cons, List.append_assoc, hrev, List.cons_append, hd,
      ← List.cons_append, ← hrev, List.takeWhile_append_of_pos hall]
    simp
  have h2 : (b.reverse.dropWhile (· == '/')).takeWhile (· != '/') = b.reverse := by
    rw [hrev, hd, ← hrev]
    exact List.takeWhile_eq_self_iff.mpr hall
  simp only [extname, h1, h2]

theorem splitSlash_joinSlash (R : List Str) (hne : R ≠ []) (h : ∀ s ∈ R, '/' ∉ s) :
    splitSlash (joinSlash R) = R := by
  induction R with
  | nil => exact absurd rfl hne
  | cons s R ih =>
    have hs : '/' ∉ s := h s (by simp)
    cases R with
    | nil => simpa [joinSlash] using splitSlash_of_not_mem s hs
    | cons t ts =>
      rw [joinSlash, splitSlash_append_slash, splitSlash_of_not_mem s hs,
        ih (by simp) (fun u hu => h u (by simp [hu]))]
      simp

theorem normalizeSegments_joinSlash (R : List Str) (hR : ∀ s ∈ R, CleanSeg s) :
    normalizeSegments ('/' :: joinSlash R) false = R := by
  unfold normalizeSegments
  by_cases hne : R = []
  · subst hne; decide
  · rw [splitSlash, if_pos rfl, splitSlash_joinSlash R hne (fun s hs => (hR s hs).2.2.2)]
    rw [foldl_normalizeStep_noDotDot false _ []]
    · have h1 := keptSegments_of_clean R hR
      unfold keptSegments at h1 ⊢
      simp [h1]
    · intro s hs
      simp only [List.mem_cons] at hs
      rcases hs with h | h
      · rw [h]; decide
      · exact (hR s h).2.2.1

/-- A resolved root is `/` followed by its clean segments, and its root prefix
is the root followed by `/`. -/
theorem isResolvedPath_spec (root : Str) (h : isResolvedPath root = true) :
    ∃ R, (∀ s ∈ R, CleanSeg s) ∧ R ≠ [] ∧ root = '/' :: joinSlash R ∧
      join root ['/'] = root ++ ['/'] ∧ root ++ ['/'] = '/' :: dirString R := by
  unfold isResolvedPath at h
  simp only [Bool.and_eq_true, beq_iff_eq, bne_iff_ne, ne_eq] at h
  obtain ⟨⟨habs, hlast⟩, hnorm⟩ := h
  have hclean := normalizeSegments_clean root
  have hjoin := join_root_slash root habs
  obtain ⟨tl, rfl⟩ : ∃ tl, root = '/' :: tl := by
    cases root with
    | nil => simp at habs
    | cons c tl => simp at habs; exact ⟨tl, by rw [habs]⟩
  have hroot : '/' :: tl = '/' :: joinSlash (normalizeSegments ('/' :: tl) false) ∧
      normalizeSegments ('/' :: tl) false ≠ [] := by
    unfold normalize normalizeString at hnorm
    simp only [List.cons_ne_nil, if_false, List.head?_cons, beq_self_eq_true, Bool.not_true,
      if_true] at hnorm
    by_cases hj : joinSlash (normalizeSegments ('/' :: tl) false) = []
    · rw [if_pos hj] at hnorm
      rw [← hnorm] at hlast
      exact absurd rfl hlast
    · rw [if_neg hj] at hnorm
      have hl : (('/' :: tl).getLast? == some '/') = false := by simpa using hlast
      rw [hl] at hnorm
      simp only [Bool.false_eq_true, if_false] at hnorm
      refine ⟨hnorm.symm, ?_⟩
      intro hnil
      rw [hnil] at hj
      exact hj rfl
  obtain ⟨hr, hne⟩ := hroot
  have hdir : ('/' :: tl) ++ ['/'] = '/' :: dirString (normalizeSegments ('/' :: tl) false) := by
    rw [dirString_eq_joinSlash _ hne]
    conv_lhs => rw [hr]
    simp
  exact ⟨_, hclean, hne, hr, hjoin.trans hdir.symm, hdir⟩

/-- With a single candidate the outcome does not depend on the file system: the
joined candidate if it lies under the root prefix, `Path traversal blocked`
otherwise. -/
theorem resolveFrom_single (metadata : Metadata) (existsSync : Str → Bool)
    (scheme pathname : Str) (hc : candidatePathnames scheme pathname = [pathname]) :
    (resolveFrom metadata existsSync scheme pathname).1 =
      if startsWith (join (join metadata.root ['/']) pathname) (join metadata.root ['/']) = true
      then .ok { scheme := scheme,
                 resolved := join (join metadata.root ['/']) pathname,
                 fileExtension := extname (join (join metadata.root ['/']) pathname) }
      else .error pathTraversalBlocked := by
  have key : (match (searchCandidates (join metadata.root ['/']) metadata.brotli existsSync
        [pathname]).1 with
      | some r => if r = [] then join (join metadata.root ['/']) pathname else r
      | none => join (join metadata.root ['/']) pathname) =
      join (join metadata.root ['/']) pathname := by
    cases hf : (searchCandidates (join metadata.root ['/']) metadata.brotli existsSync
        [pathname]).1 with
    | none => rfl
    | some r =>
      obtain ⟨c, hcm, hr, _⟩ := searchCandidates_some _ _ _ _ r hf
      simp only [List.mem_singleton] at hcm
      subst hcm
      simp only
      split_ifs with h0
      · rfl
      · exact hr
  unfold resolveFrom
  simp only [hc, key]
  by_cases hs : startsWith (join (join metadata.root ['/']) pathname)
      (join metadata.root ['/']) = true
  · simp [hs]
  · simp [hs]

/-- A path without `..` segment joined to a resolved root: the root, `/`, the
kept segments, and the trailing `/` if the path has one. -/
theorem join_resolved_root (root : Str) (hroot : isResolvedPath root = true) (p : Str)
    (hp : ∀ s ∈ splitSlash p, s ≠ ['.', '.']) (hC : keptSegments (splitSlash p) ≠ []) :
    join (join root ['/']) p =
        root ++ '/' :: (joinSlash (keptSegments (splitSlash p)) ++
          (if p.getLast? = some '/' then ['/'] else [])) ∧
      startsWith (join (join root ['/']) p) (join root ['/']) = true := by
  obtain ⟨R, hR, _, _, hj, hd⟩ := isResolvedPath_spec root hroot
  have h := join_noDotDot R hR p hp hC
  rw [← hd] at h
  rw [hj, h]
  constructor
  · simp
  · unfold startsWith
    rw [List.isPrefixOf_iff_prefix]
    exact ⟨joinSlash (keptSegments (splitSlash p)) ++ (if p.getLast? = some '/' then ['/'] else []),
      by simp⟩

theorem resolve_of_absolute (cwd dirname rel : Str) (habs : dirname.head? = some '/')
    (hrel : rel ≠ []) (hrel' : rel.head? ≠ some '/') :
    resolve cwd [dirname, rel] =
      '/' :: joinSlash (normalizeSegments (dirname ++ '/' :: (rel ++ ['/'])) false) := by
  have hd : dirname ≠ [] := by
    rintro rfl
    simp at habs
  have h1 : (rel.head? == some '/') = false := by simpa using hrel'
  have h2 : (dirname.head? == some '/') = true := by simp [habs]
  simp [resolve, resolveLoop, hrel, hd, h1, h2, normalizeString]

/-- The root of a registered scheme is a resolved path: `rel`, relative to the
absolute `dirname`, ends in a clean segment `name`. -/
theorem isResolvedPath_resolve (cwd dirname rel : Str) (habs : dirname.head? = some '/')
    (hrel : rel ≠ []) (hrel' : rel.head? ≠ some '/') (L : List Str) (name : Str)
    (hsplit : splitSlash rel = L ++ [name]) (hname : CleanSeg name) :
    isResolvedPath (resolve cwd [dirname, rel]) = true := by
  rw [resolve_of_absolute cwd dirname rel habs hrel hrel']
  have hclean := normalizeSegments_clean (dirname ++ '/' :: (rel ++ ['/']))
  have hne : normalizeSegments (dirname ++ '/' :: (rel ++ ['/'])) false ≠ [] := by
    unfold normalizeSegments
    rw [splitSlash_append_slash, show rel ++ ['/'] = rel ++ '/' :: [] by rfl,
      splitSlash_append_slash, hsplit]
    simp only [List.foldl_append, List.foldl_cons, List.foldl_nil, splitSlash]
    have h1 : ¬ (name = [] ∨ name = ['.']) := fun h => h.elim hname.1 hname.2.1
    simp [normalizeStep, h1, hname.2.2.1]
  set R := normalizeSegments (dirname ++ '/' :: (rel ++ ['/'])) false with hRdef
  have hj := joinSlash_ne_nil R hne (fun s hs => (hclean s hs).1)
  have hseg := normalizeSegments_joinSlash R hclean
  have hlast : ('/' :: joinSlash R).getLast? ≠ some '/' := by
    intro hl
    rw [List.getLast?_eq_some_iff] at hl
    obtain ⟨ys, hys⟩ := hl
    have hsp : splitSlash ('/' :: joinSlash R) = [] :: R := by
      rw [splitSlash, if_pos rfl, splitSlash_joinSlash R hne (fun s hs => (hclean s hs).2.2.2)]
    rw [hys, show ys ++ ['/'] = ys ++ '/' :: [] by rfl, splitSlash_append_slash] at hsp
    have hmem : ([] : Str) ∈ ([] : Str) :: R := by simp
    have : ([] : Str) ∈ R := by
      have h2 : ([] : Str) ∈ splitSlash ys ++ splitSlash [] := by simp [splitSlash]
      rw [hsp] at h2
      have hys' : splitSlash ys ≠ [] := splitSlash_ne_nil ys
      cases hsy : splitSlash ys with
      | nil => exact absurd hsy hys'
      | cons a as =>
        rw [hsy] at hsp
        simp only [List.cons_append, List.cons.injEq] at hsp
        rw [← hsp.2]
        simp [splitSlash]
    exact (hclean [] this).1 rfl
  unfold isResolvedPath
  simp only [List.head?_cons, beq_self_eq_true, Bool.true_and, Bool.and_eq_true, bne_iff_ne, ne_eq,
    beq_iff_eq]
  refine ⟨hlast, ?_⟩
  unfold normalize normalizeString
  have hl : (('/' :: joinSlash R).getLast? == some '/') = false := by simpa using hlast
  simp [hseg, hj, hl]

/-- The resolution of a pathname without `..` segment that has a single
candidate, under a resolved root: the same for every file system. -/
theorem resolveFrom_clean (metadata : Metadata) (existsSync : Str → Bool) (scheme pathname : Str)
    (hroot : isResolvedPath metadata.root = true)
    (hp : ∀ s ∈ splitSlash pathname, s ≠ ['.', '.'])
    (hC : keptSegments (splitSlash pathname) ≠ [])
    (hc : candidatePathnames scheme pathname = [pathname]) :
    (resolveFrom metadata existsSync scheme pathname).1 =
      .ok { scheme := scheme,
            resolved := metadata.root ++ '/' :: relativeTail pathname,
            fileExtension := extname (metadata.root ++ '/' :: relativeTail pathname) } := by
  obtain ⟨hj, hs⟩ := join_resolved_root metadata.root hroot pathname hp hC
  rw [resolveFrom_single metadata existsSync scheme pathname hc, if_pos hs, hj]
  rfl

theorem indexedPathname_of_no_index (other : Str → URL → Except JsError Str) (metadata : Metadata)
    (parsedURL : URL)
    (h : truthyStr metadata.directoryIndex = none ∨ endsWithChar parsedURL.pathname '/' = false) :
    indexedPathname other metadata parsedURL = .ok parsedURL.pathname := by
  unfold indexedPathname
  rcases h with h | h
  · rw [h]
  · cases truthyStr metadata.directoryIndex with
    | none => rfl
    | some d => simp [h]

/-- C8. For every descriptor with a default extension and every request, the
default-extension step of `resolveRequestPath` appends the default extension to
the pathname exactly when `path.extname` of the pathname is empty, and leaves a
pathname with an extension unchanged (the pathname being the request's, or the
one the directory-index step made of it).  With default extension `.html`, the
pathname `/catalog/widget` resolves to `<root>/catalog/widget.html`. -/
theorem C8_default_extension (other : Str → URL → Except JsError Str) (existsSync : Str → Bool)
    (metadata : Metadata) (parsedURL : URL) (ext : Str)
    (hext : metadata.defaultExtension = some ext) (hne : ext ≠ []) :
    adjustedPathname other metadata parsedURL =
      (indexedPathname other metadata parsedURL).map
        (fun p => if extname p = [] then p ++ ext else p) ∧
    ((truthyStr metadata.directoryIndex = none ∨ endsWithChar parsedURL.pathname '/' = false) →
      adjustedPathname other metadata parsedURL =
        .ok (if extname parsedURL.pathname = [] then parsedURL.pathname ++ ext
             else parsedURL.pathname)) ∧
    (isResolvedPath metadata.root = true → parsedURL.pathname = "/catalog/widget".toList →
      ext = ".html".toList →
      (resolveRequestPath other existsSync metadata parsedURL).1 =
        .ok ⟨schemeOf parsedURL, metadata.root ++ "/catalog/widget.html".toList,
          ".html".toList⟩) := by
  have hstep : withDefaultExtension metadata =
      fun p => if extname p = [] then p ++ ext else p := by
    funext p
    simp [withDefaultExtension, hext, truthyStr, hne]
  have h1 : adjustedPathname other metadata parsedURL =
      (indexedPathname other metadata parsedURL).map
        (fun p => if extname p = [] then p ++ ext else p) := by
    unfold adjustedPathname
    rw [hstep]
  refine ⟨h1, ?_, ?_⟩
  · intro h
    rw [h1, indexedPathname_of_no_index other metadata parsedURL h]
    rfl
  · intro hroot hpath hhtml
    have hidx : indexedPathname other metadata parsedURL = .ok parsedURL.pathname :=
      indexedPathname_of_no_index other metadata parsedURL (Or.inr (by rw [hpath]; decide))
    have hadj : adjustedPathname other metadata parsedURL =
        .ok "/catalog/widget.html".toList := by
      rw [h1, hidx, hpath, hhtml]
      decide
    unfold resolveRequestPath
    rw [hadj]
    simp only
    rw [resolveFrom_clean metadata existsSync (schemeOf parsedURL) "/catalog/widget.html".toList
      hroot (by decide) (by decide) (by simp [candidatePathnames, startsWith])]
    have ht : relativeTail "/catalog/widget.html".toList = "catalog/widget.html".toList := by
      decide
    have he : extname (metadata.root ++ '/' :: "catalog/widget.html".toList) =
        ".html".toList := by
      rw [show metadata.root ++ '/' :: "catalog/widget.html".toList =
        (metadata.root ++ "/catalog".toList) ++ '/' :: "widget.html".toList by simp]
      rw [extname_append_slash _ _ (by decide) (by decide)]
      decide
    rw [ht, he]
    rfl

/-- The request `/catalog/widget` on `tw-extensions`. -/
theorem C8_default_extension_witness :
    (resolveRequestPath sampleEnv.newURLRelative (fun _ => false) (sampleMetadata "tw-extensions")
        ⟨"tw-extensions:".toList, "/catalog/widget".toList⟩).1 =
      .ok ⟨"tw-extensions".toList, "/app/dist-extensions/catalog/widget.html".toList,
        ".html".toList⟩ :=
  (C8_default_extension sampleEnv.newURLRelative (fun _ => false) (sampleMetadata "tw-extensions")
    ⟨"tw-extensions:".toList, "/catalog/widget".toList⟩ ".html".toList (by decide)
    (by decide)).2.2 (by decide) rfl rfl

theorem withDefaultExtension_of_extname (metadata : Metadata) (p : Str)
    (h : extname p ≠ [] ∨ truthyStr metadata.defaultExtension = none) :
    withDefaultExtension metadata p = p := by
  unfold withDefaultExtension
  rcases h with h | h
  · cases truthyStr metadata.defaultExtension with
    | none => rfl
    | some d => simp [h]
  · rw [h]

theorem isPlainFileName_spec (idx : Str) (h : isPlainFileName idx = true) :
    idx ≠ [] ∧ idx ≠ ['.'] ∧ idx ≠ ['.', '.'] ∧ '/' ∉ idx := by
  unfold isPlainFileName at h
  simp only [Bool.and_eq_true, bne_iff_ne, ne_eq, List.all_eq_true, Bool.or_eq_true,
    beq_iff_eq] at h
  obtain ⟨⟨⟨h1, h2⟩, h3⟩, h4⟩ := h
  refine ⟨h1, h3, h4, ?_⟩
  intro hm
  have := h2 '/' hm
  revert this
  decide

/-- The segments of a pathname that ends in `/`, followed by a plain file name. -/
theorem splitSlash_index (pathname idx : Str) (hslash : endsWithChar pathname '/' = true)
    (hplain : isPlainFileName idx = true) :
    ∃ q, pathname = q ++ ['/'] ∧ splitSlash pathname = splitSlash q ++ [[]] ∧
      splitSlash (pathname ++ idx) = splitSlash q ++ [idx] := by
  unfold endsWithChar at hslash
  simp only [beq_iff_eq] at hslash
  obtain ⟨q, hq⟩ := List.getLast?_eq_some_iff.mp hslash
  obtain ⟨_, _, _, hns⟩ := isPlainFileName_spec idx hplain
  refine ⟨q, hq, ?_, ?_⟩
  · rw [hq, show q ++ ['/'] = q ++ '/' :: [] by rfl, splitSlash_append_slash]
    rfl
  · rw [hq, List.append_assoc, List.singleton_append, splitSlash_append_slash,
      splitSlash_of_not_mem idx hns]

theorem indexedPathname_plain (other : Str → URL → Except JsError Str) (metadata : Metadata)
    (parsedURL : URL) (idx : Str) (hidx : metadata.directoryIndex = some idx)
    (hplain : isPlainFileName idx = true)
    (hslash : endsWithChar parsedURL.pathname '/' = true)
    (hhier : parsedURL.pathname.head? = some '/') :
    indexedPathname other metadata parsedURL = .ok (parsedURL.pathname ++ idx) := by
  have hne := (isPlainFileName_spec idx hplain).1
  simp [indexedPathname, hidx, truthyStr, hne, hslash, relativePathname, hplain, hhier]

/-- The resolution of a directory request whose index name keeps its form. -/
theorem resolve_index (other : Str → URL → Except JsError Str) (existsSync : Str → Bool)
    (metadata : Metadata) (parsedURL : URL) (idx : Str)
    (hidx : metadata.directoryIndex = some idx) (hplain : isPlainFileName idx = true)
    (hslash : endsWithChar parsedURL.pathname '/' = true)
    (hhier : parsedURL.pathname.head? = some '/')
    (hroot : isResolvedPath metadata.root = true) (hwf : parsedURL.wellFormed = true)
    (hkeep : extname (parsedURL.pathname ++ idx) ≠ [] ∨ truthyStr metadata.defaultExtension = none)
    (hc : candidatePathnames (schemeOf parsedURL) (parsedURL.pathname ++ idx) =
      [parsedURL.pathname ++ idx]) :
    (resolveRequestPath other existsSync metadata parsedURL).1 =
      .ok { scheme := schemeOf parsedURL,
            resolved := metadata.root ++ '/' :: relativeTail (parsedURL.pathname ++ idx),
            fileExtension :=
              extname (metadata.root ++ '/' :: relativeTail (parsedURL.pathname ++ idx)) } ∧
    join (join metadata.root ['/']) (parsedURL.pathname ++ idx) =
      metadata.root ++ '/' :: relativeTail (parsedURL.pathname ++ idx) := by
  obtain ⟨hi1, hi2, hi3, _⟩ := isPlainFileName_spec idx hplain
  obtain ⟨q, _, hsq, hsi⟩ := splitSlash_index parsedURL.pathname idx hslash hplain
  have hnd : ∀ s ∈ splitSlash (parsedURL.pathname ++ idx), s ≠ ['.', '.'] := by
    intro s hs
    rw [hsi] at hs
    simp only [List.mem_append, List.mem_singleton] at hs
    rcases hs with h | h
    · unfold URL.wellFormed at hwf
      simp only [hhier, beq_self_eq_true, if_true, List.all_eq_true, Bool.and_eq_true,
        bne_iff_ne, ne_eq] at hwf
      exact (hwf s (by rw [hsq]; simp [h])).2
    · rw [h]; exact hi3
  have hC : keptSegments (splitSlash (parsedURL.pathname ++ idx)) ≠ [] := by
    have : idx ∈ keptSegments (splitSlash (parsedURL.pathname ++ idx)) := by
      unfold keptSegments
      rw [hsi]
      simp [hi1, hi2]
    exact List.ne_nil_of_mem this
  have hadj : adjustedPathname other metadata parsedURL = .ok (parsedURL.pathname ++ idx) := by
    unfold adjustedPathname
    rw [indexedPathname_plain other metadata parsedURL idx hidx hplain hslash hhier]
    simp [Except.map, withDefaultExtension_of_extname metadata _ hkeep]
  refine ⟨?_, (join_resolved_root metadata.root hroot _ hnd hC).1⟩
  unfold resolveRequestPath
  rw [hadj]
  exact resolveFrom_clean metadata existsSync _ _ hroot hnd hC hc

/-- C7 as stated fails, in three ways.  An index name without extension gets the
default extension: with index `README` and default extension `.html` the pathname
`/` resolves to `/srv/README.html`, not to `/srv/README`.  Against an opaque-path
URL such as `tw-extensions:a/`, whose pathname ends in `/`, the URL constructor
throws.  And on `tw-editor` a pathname under `/static/` may resolve to its `/gui`
alias. -/
theorem C7_counterexample :
    (isPlainFileName "README".toList = true ∧
      (resolveRequestPath sampleEnv.newURLRelative (fun _ => false)
        { root := "/srv".toList, directoryIndex := some "README".toList,
          defaultExtension := some ".html".toList }
        ⟨"tw-docs:".toList, "/".toList⟩).1 =
      .ok ⟨"tw-docs".toList, "/srv/README.html".toList, ".html".toList⟩) ∧
    (resolveRequestPath sampleEnv.newURLRelative (fun _ => false) (sampleMetadata "tw-extensions")
        ⟨"tw-extensions:".toList, "a/".toList⟩).1 = .error JsError.invalidURL ∧
    (resolveRequestPath sampleEnv.newURLRelative
        (fun p => p == "/srv/gui/static/index.html".toList)
        { root := "/srv".toList, directoryIndex := some "index.html".toList }
        ⟨"tw-editor:".toList, "/static/".toList⟩).1 =
      .ok ⟨"tw-editor".toList, "/srv/gui/static/index.html".toList, ".html".toList⟩ := by
  decide

/-- C7, as amended. For every descriptor whose `directoryIndex` is a plain file name
and every request URL with a hierarchical path whose pathname ends in `/`, the
directory-index step makes the pathname that pathname followed by the index file
name.  When moreover the index name has an extension (or no default extension is
set), the root is a resolved path and the `tw-editor` alias adds no candidate,
`resolveRequestPath` resolves to root joined with it: `/` with index `index.html`
gives `<root>/index.html`, and `/a/b/` with index `x.html` gives
`<root>/a/b/x.html`. -/
theorem C7_directory_index (other : Str → URL → Except JsError Str) (existsSync : Str → Bool)
    (metadata : Metadata) (parsedURL : URL) (idx : Str)
    (hidx : metadata.directoryIndex = some idx) (hplain : isPlainFileName idx = true)
    (hslash : endsWithChar parsedURL.pathname '/' = true)
    (hhier : parsedURL.pathname.head? = some '/') :
    indexedPathname other metadata parsedURL = .ok (parsedURL.pathname ++ idx) ∧
    (isResolvedPath metadata.root = true → parsedURL.wellFormed = true →
      (extname idx ≠ [] ∨ truthyStr metadata.defaultExtension = none) →
      candidatePathnames (schemeOf parsedURL) (parsedURL.pathname ++ idx) =
        [parsedURL.pathname ++ idx] →
      (resolveRequestPath other existsSync metadata parsedURL).1 =
        .ok { scheme := schemeOf parsedURL,
              resolved := join (join metadata.root ['/']) (parsedURL.pathname ++ idx),
              fileExtension :=
                extname (join (join metadata.root ['/']) (parsedURL.pathname ++ idx)) }) ∧
    (isResolvedPath metadata.root = true → parsedURL.pathname = "/".toList →
      idx = "index.html".toList →
      (resolveRequestPath other existsSync metadata parsedURL).1 =
        .ok ⟨schemeOf parsedURL, metadata.root ++ "/index.html".toList, ".html".toList⟩) ∧
    (isResolvedPath metadata.root = true → parsedURL.pathname = "/a/b/".toList →
      idx = "x.html".toList →
      (resolveRequestPath other existsSync metadata parsedURL).1 =
        .ok ⟨schemeOf parsedURL, metadata.root ++ "/a/b/x.html".toList, ".html".toList⟩) := by
  obtain ⟨hi1, _, _, hns⟩ := isPlainFileName_spec idx hplain
  obtain ⟨q, hq, _, _⟩ := splitSlash_index parsedURL.pathname idx hslash hplain
  have hextq : extname (parsedURL.pathname ++ idx) = extname idx := by
    rw [hq, List.append_assoc, List.singleton_append]
    exact extname_append_slash q idx hns hi1
  refine ⟨indexedPathname_plain other metadata parsedURL idx hidx hplain hslash hhier, ?_, ?_, ?_⟩
  · intro hroot hwf hkeep hc
    obtain ⟨h1, h2⟩ := resolve_index other existsSync metadata parsedURL idx hidx hplain hslash
      hhier hroot hwf (by rw [hextq]; exact hkeep) hc
    rw [h1, h2]
  · intro hroot hpath hidx'
    subst hidx'
    have hwf : parsedURL.wellFormed = true := by
      unfold URL.wellFormed
      rw [hpath]
      decide
    obtain ⟨h1, _⟩ := resolve_index other existsSync metadata parsedURL "index.html".toList hidx
      hplain hslash hhier hroot hwf (by rw [hextq]; exact Or.inl (by decide))
      (by rw [hpath]; simp [candidatePathnames, startsWith])
    rw [h1, hpath]
    have ht : relativeTail ("/".toList ++ "index.html".toList) = "index.html".toList := by decide
    have he : extname (metadata.root ++ '/' :: "index.html".toList) = ".html".toList := by
      rw [extname_append_slash _ _ (by decide) (by decide)]
      decide
    rw [ht, he]
    rfl
  · intro hroot hpath hidx'
    subst hidx'
    have hwf : parsedURL.wellFormed = true := by
      unfold URL.wellFormed
      rw [hpath]
      decide
    obtain ⟨h1, _⟩ := resolve_index other existsSync metadata parsedURL "x.html".toList hidx
      hplain hslash hhier hroot hwf (by rw [hextq]; exact Or.inl (by decide))
      (by rw [hpath]; simp [candidatePathnames, startsWith])
    rw [h1, hpath]
    have ht : relativeTail ("/a/b/".toList ++ "x.html".toList) = "a/b/x.html".toList := by decide
    have he : extname (metadata.root ++ '/' :: "a/b/x.html".toList) = ".html".toList := by
      rw [show metadata.root ++ '/' :: "a/b/x.html".toList =
        (metadata.root ++ "/a/b".toList) ++ '/' :: "x.html".toList by simp]
      rw [extname_append_slash _ _ (by decide) (by decide)]
      decide
    rw [ht, he]
    rfl

/-- The request `/` on `tw-extensions` resolves to `index.html` under the root. -/
theorem C7_directory_index_witness :
    (resolveRequestPath sampleEnv.newURLRelative (fun _ => false) (sampleMetadata "tw-extensions")
        ⟨"tw-extensions:".toList, "/".toList⟩).1 =
      .ok ⟨"tw-extensions".toList, "/app/dist-extensions/index.html".toList, ".html".toList⟩ :=
  (C7_directory_index sampleEnv.newURLRelative (fun _ => false) (sampleMetadata "tw-extensions")
    ⟨"tw-extensions:".toList, "/".toList⟩ "index.html".toList (by decide) (by decide)
    (by decide) (by decide)).2.2.1 (by decide) rfl rfl

/-- The alias rule, for a descriptor without brotli, directory index and default
extension whose root is resolved: a pathname under `/static/` or
`/extension-editor/` whose primary candidate is absent and whose `/gui` candidate
exists resolves to the `/gui` candidate. -/
theorem resolve_alias (other : Str → URL → Except JsError Str) (existsSync : Str → Bool)
    (metadata : Metadata) (parsedURL : URL)
    (hroot : isResolvedPath metadata.root = true) (hb : metadata.brotli = false)
    (hi : metadata.directoryIndex = none) (he : metadata.defaultExtension = none)
    (hscheme : schemeOf parsedURL = "tw-editor".toList)
    (hwf : parsedURL.wellFormed = true)
    (hpre : startsWith parsedURL.pathname "/static/".toList = true ∨
      startsWith parsedURL.pathname "/extension-editor/".toList = true)
    (h1 : existsSync (join (join metadata.root ['/']) parsedURL.pathname) = false)
    (h2 : existsSync (join (join metadata.root ['/']) ("/gui".toList ++ parsedURL.pathname)) =
      true) :
    (resolveRequestPath other existsSync metadata parsedURL).1 =
      .ok { scheme := "tw-editor".toList,
            resolved := join (join metadata.root ['/']) ("/gui".toList ++ parsedURL.pathname),
            fileExtension :=
              extname (join (join metadata.root ['/']) ("/gui".toList ++ parsedURL.pathname)) } ∧
    join (join metadata.root ['/']) parsedURL.pathname =
      metadata.root ++ '/' :: relativeTail parsedURL.pathname ∧
    join (join metadata.root ['/']) ("/gui".toList ++ parsedURL.pathname) =
      metadata.root ++ '/' :: relativeTail ("/gui".toList ++ parsedURL.pathname) := by
  -- the shape of the pathname
  obtain ⟨seg, rest, hseg, hsegne, hpath⟩ : ∃ seg rest : Str, CleanSeg seg ∧ seg ≠ [] ∧
      parsedURL.pathname = '/' :: (seg ++ '/' :: rest) := by
    rcases hpre with h | h
    · obtain ⟨rest, hr⟩ := List.isPrefixOf_iff_prefix.mp h
      exact ⟨"static".toList, rest, by unfold CleanSeg; decide, by decide, by rw [← hr]; rfl⟩
    · obtain ⟨rest, hr⟩ := List.isPrefixOf_iff_prefix.mp h
      exact ⟨"extension-editor".toList, rest, by unfold CleanSeg; decide, by decide,
        by rw [← hr]; rfl⟩
  have hsplit : splitSlash parsedURL.pathname = [] :: seg :: splitSlash rest := by
    rw [hpath, splitSlash, if_pos rfl, splitSlash_append_slash,
      splitSlash_of_not_mem seg hseg.2.2.2]
    rfl
  have hsplitg : splitSlash ("/gui".toList ++ parsedURL.pathname) =
      [] :: "gui".toList :: seg :: splitSlash rest := by
    rw [hpath, show "/gui".toList ++ '/' :: (seg ++ '/' :: rest) =
      '/' :: ("gui".toList ++ '/' :: (seg ++ '/' :: rest)) by rfl]
    rw [splitSlash, if_pos rfl, splitSlash_append_slash, splitSlash_append_slash,
      splitSlash_of_not_mem seg hseg.2.2.2]
    rfl
  have hnd : ∀ s ∈ splitSlash parsedURL.pathname, s ≠ ['.', '.'] := by
    intro s hs
    unfold URL.wellFormed at hwf
    have hh : parsedURL.pathname.head? = some '/' := by rw [hpath]; rfl
    simp only [hh, beq_self_eq_true, if_true, List.all_eq_true, Bool.and_eq_true,
      bne_iff_ne, ne_eq] at hwf
    exact (hwf s hs).2
  have hndg : ∀ s ∈ splitSlash ("/gui".toList ++ parsedURL.pathname), s ≠ ['.', '.'] := by
    intro s hs
    rw [hsplitg] at hs
    simp only [List.mem_cons] at hs
    rcases hs with h | h | h
    · rw [h]; decide
    · rw [h]; decide
    · exact hnd s (by rw [hsplit]; simp only [List.mem_cons]; exact Or.inr h)
  have hC : keptSegments (splitSlash parsedURL.pathname) ≠ [] := by
    have : seg ∈ keptSegments (splitSlash parsedURL.pathname) := by
      unfold keptSegments
      rw [hsplit]
      simp [hseg.1, hseg.2.1]
    exact List.ne_nil_of_mem this
  have hCg : keptSegments (splitSlash ("/gui".toList ++ parsedURL.pathname)) ≠ [] := by
    have : seg ∈ keptSegments (splitSlash ("/gui".toList ++ parsedURL.pathname)) := by
      unfold keptSegments
      rw [hsplitg]
      simp [hseg.1, hseg.2.1]
    exact List.ne_nil_of_mem this
  obtain ⟨hj, hs⟩ := join_resolved_root metadata.root hroot _ hnd hC
  obtain ⟨hjg, hsg⟩ := join_resolved_root metadata.root hroot _ hndg hCg
  refine ⟨?_, hj, hjg⟩
  have hadj : adjustedPathname other metadata parsedURL = .ok parsedURL.pathname := by
    simp [adjustedPathname, indexedPathname, withDefaultExtension, hi, he, truthyStr, Except.map]
  have hcands : candidatePathnames (schemeOf parsedURL) parsedURL.pathname =
      [parsedURL.pathname, "/gui".toList ++ parsedURL.pathname] := by
    unfold candidatePathnames
    rw [if_pos ⟨hscheme, hpre.imp id id⟩]
  have hgne : join (join metadata.root ['/']) ("/gui".toList ++ parsedURL.pathname) ≠ [] := by
    rw [hjg]
    simp
  unfold resolveRequestPath
  rw [hadj]
  simp only
  unfold resolveFrom
  rw [hscheme] at hcands
  simp only [hscheme, hcands]
  have hsearch : ∀ g : Str, startsWith (join (join metadata.root ['/']) g)
        (join metadata.root ['/']) = true →
      existsSync (join (join metadata.root ['/']) g) = true →
      searchCandidates (join metadata.root ['/']) metadata.brotli existsSync
        [parsedURL.pathname, g] =
      (some (join (join metadata.root ['/']) g),
       [join (join metadata.root ['/']) parsedURL.pathname, join (join metadata.root ['/']) g]) := by
    intro g hg1 hg2
    simp [searchCandidates, probeCandidate, hb, hs, hg1, h1, hg2]
  rw [hsearch _ hsg h2]
  simp only [if_neg hgne, hsg, Bool.not_true, Bool.false_eq_true, if_false]

/-- The descriptor of `tw-editor`: a resolved root, no brotli, no directory index,
no default extension. -/
theorem twEditor_metadata (cwd dirname : Str) (md : Metadata)
    (hdir : dirname.head? = some '/')
    (hmd : schemeMetadata cwd dirname "tw-editor" = some md) :
    isResolvedPath md.root = true ∧ md.brotli = false ∧ md.directoryIndex = none ∧
      md.defaultExtension = none := by
  simp [schemeMetadata, FILE_SCHEMES, List.find?] at hmd
  subst hmd
  refine ⟨?_, rfl, rfl, rfl⟩
  exact isResolvedPath_resolve cwd dirname "../dist-renderer-webpack/editor".toList hdir
    (by decide) (by decide) ["..".toList, "dist-renderer-webpack".toList] "editor".toList
    (by decide) (by unfold CleanSeg; decide)

/-- C9. For every request on the `tw-editor` scheme whose pathname begins with
`/static/` or `/extension-editor/`, if root joined with the pathname does not
exist on disk but root joined with `/gui` and the pathname does,
`resolveRequestPath` returns the latter; for `/static/foo.js` that is
`<root>/gui/static/foo.js`, the absent primary candidate being
`<root>/static/foo.js`.  Here `__dirname` is an absolute path and the request URL
is a parsed one. -/
theorem C9_gui_alias (other : Str → URL → Except JsError Str) (existsSync : Str → Bool)
    (cwd dirname : Str) (md : Metadata) (parsedURL : URL)
    (hdir : dirname.head? = some '/')
    (hmd : schemeMetadata cwd dirname "tw-editor" = some md)
    (hscheme : schemeOf parsedURL = "tw-editor".toList)
    (hwf : parsedURL.wellFormed = true)
    (hpre : startsWith parsedURL.pathname "/static/".toList = true ∨
      startsWith parsedURL.pathname "/extension-editor/".toList = true)
    (h1 : existsSync (join (join md.root ['/']) parsedURL.pathname) = false)
    (h2 : existsSync (join (join md.root ['/']) ("/gui".toList ++ parsedURL.pathname)) = true) :
    (resolveRequestPath other existsSync md parsedURL).1 =
      .ok { scheme := "tw-editor".toList,
            resolved := join (join md.root ['/']) ("/gui".toList ++ parsedURL.pathname),
            fileExtension :=
              extname (join (join md.root ['/']) ("/gui".toList ++ parsedURL.pathname)) } ∧
    (parsedURL.pathname = "/static/foo.js".toList →
      join (join md.root ['/']) parsedURL.pathname = md.root ++ "/static/foo.js".toList ∧
      join (join md.root ['/']) ("/gui".toList ++ parsedURL.pathname) =
        md.root ++ "/gui/static/foo.js".toList) := by
  obtain ⟨hroot, hb, hi, he⟩ := twEditor_metadata cwd dirname md hdir hmd
  obtain ⟨hres, hj, hjg⟩ := resolve_alias other existsSync md parsedURL hroot hb hi he hscheme hwf
    hpre h1 h2
  refine ⟨hres, ?_⟩
  intro hpath
  rw [hj, hjg, hpath]
  have ht1 : relativeTail "/static/foo.js".toList = "static/foo.js".toList := by decide
  have ht2 : relativeTail ("/gui".toList ++ "/static/foo.js".toList) =
      "gui/static/foo.js".toList := by decide
  rw [ht1, ht2]
  exact ⟨rfl, rfl⟩

/-- The request `/static/foo.js` on `tw-editor`, on a disk that has the file under
`gui` only. -/
theorem C9_gui_alias_witness :
    (resolveRequestPath sampleEnv.newURLRelative
        (fun p => p == "/app/dist-renderer-webpack/editor/gui/static/foo.js".toList)
        (sampleMetadata "tw-editor") ⟨"tw-editor:".toList, "/static/foo.js".toList⟩).1 =
      .ok ⟨"tw-editor".toList, "/app/dist-renderer-webpack/editor/gui/static/foo.js".toList,
        ".js".toList⟩ :=
  (C9_gui_alias sampleEnv.newURLRelative
    (fun p => p == "/app/dist-renderer-webpack/editor/gui/static/foo.js".toList)
    "/".toList "/app/src-main".toList (sampleMetadata "tw-editor")
    ⟨"tw-editor:".toList, "/static/foo.js".toList⟩ (by decide) (by decide) (by decide)
    (by decide) (by decide) (by decide) (by decide)).1

/-! ## Bodies, error responses and the MIME table -/

/-- C11. For every brotli descriptor and every request with a supported extension
whose resolved path has an existing, readable `.br` file, the success body of the
modern handler and of the legacy buffer handler is the brotli decompression of
the bytes of the `.br` file.  Nothing is assumed of the raw file: the statement
holds whether or not it exists and whatever it contains. -/
theorem C11_sidecar_body (env : Env) (metadata : Metadata) (url : Str) (r : Resolved)
    (mimeType : Str) (sidecar decompressed : Bytes)
    (hbrotli : metadata.brotli = true)
    (hr : resolveRequest env metadata url = .ok r)
    (hm : mimeTypeOf r.fileExtension = some mimeType)
    (hexists : env.existsSync (r.resolved ++ ".br".toList) = true)
    (hfetch : env.netFetch (r.resolved ++ ".br".toList) = .ok ⟨true, sidecar⟩)
    (hread : env.readFile (r.resolved ++ ".br".toList) = .ok sidecar)
    (hdec : env.brotliDecompress sidecar = .ok decompressed) :
    createModernProtocolHandler env metadata url =
      { status := 200,
        headers := (getBaseProtocolHeaders metadata).set "content-type".toList mimeType,
        body := .buffer decompressed } ∧
    createLegacyBrotliProtocolHandler env metadata url =
      { data := .buffer decompressed, statusCode := none,
        headers := (getBaseProtocolHeaders metadata).set "content-type".toList mimeType } := by
  have e : ".br".toList = ['.', 'b', 'r'] := rfl
  rw [e] at hexists hfetch hread
  constructor
  · simp [createModernProtocolHandler, modernTry, hr, hm, hbrotli, hexists, hfetch, hdec, bind,
      Except.bind, pure, Except.pure]
  · simp [createLegacyBrotliProtocolHandler, legacyBrotliTry, hr, hm, hexists, hread, hdec, bind,
      Except.bind, pure, Except.pure]

/-- The request `/a/sound.wav` on `tw-library` when only the `.br` file exists. -/
theorem C11_sidecar_body_witness :
    (createModernProtocolHandler sidecarEnv (sampleMetadata "tw-library")
      "tw-library://./a/sound.wav".toList).body = .buffer [9] ∧
    (createLegacyBrotliProtocolHandler sidecarEnv (sampleMetadata "tw-library")
      "tw-library://./a/sound.wav".toList).data = .buffer [9] :=
  have h := C11_sidecar_body sidecarEnv (sampleMetadata "tw-library")
    "tw-library://./a/sound.wav".toList
    ⟨"tw-library".toList, "/app/dist-library-files/a/sound.wav".toList, ".wav".toList⟩
    "audio/wav".toList [7, 8] [9] (by decide) (by decide) (by decide) (by decide) (by decide)
    (by decide) (by decide)
  ⟨by rw [h.1], by rw [h.2]⟩

theorem errorPageHeadersIn_spread (o : Obj) : errorPageHeadersIn (o.spread errorPageHeaders) := by
  unfold errorPageHeadersIn
  rw [Obj.spread_errorPageHeaders]
  exact ⟨by rw [Obj.get_set_of_ne _ _ _ _ (by decide), Obj.get_set_self], Obj.get_set_self _ _ _⟩

/-- C12. For every descriptor, whatever its own `csp`, every error response built by
the modern handler (`createErrorResponse`) and by the legacy buffer handler
(`returnErrorPage`) has status 400, `content-type: text/html` and the content
security policy `default-src 'none'`; and every response of these two handlers
that is not a success response is such an error response. -/
theorem C12_error_envelope (env : Env) (metadata : Metadata) (url : Str) :
    (∀ e, (createErrorResponse env metadata url e).status = 400 ∧
      errorPageHeadersIn (createErrorResponse env metadata url e).headers) ∧
    (∀ e, (returnErrorPage env metadata url e).statusCode = some 400 ∧
      errorPageHeadersIn (returnErrorPage env metadata url e).headers) ∧
    ((createModernProtocolHandler env metadata url).status ≠ 200 →
      (createModernProtocolHandler env metadata url).status = 400 ∧
      errorPageHeadersIn (createModernProtocolHandler env metadata url).headers) ∧
    ((createLegacyBrotliProtocolHandler env metadata url).statusCode ≠ none →
      (createLegacyBrotliProtocolHandler env metadata url).statusCode = some 400 ∧
      errorPageHeadersIn (createLegacyBrotliProtocolHandler env metadata url).headers) := by
  have h1 : ∀ e, (createErrorResponse env metadata url e).status = 400 ∧
      errorPageHeadersIn (createErrorResponse env metadata url e).headers :=
    fun e => ⟨rfl, errorPageHeadersIn_spread _⟩
  have h2 : ∀ e, (returnErrorPage env metadata url e).statusCode = some 400 ∧
      errorPageHeadersIn (returnErrorPage env metadata url e).headers :=
    fun e => ⟨rfl, errorPageHeadersIn_spread _⟩
  refine ⟨h1, h2, ?_, ?_⟩
  · intro hs
    rcases createModernProtocolHandler_cases env metadata url with ⟨e, h⟩ | ⟨r, m, b, _, _, h⟩
    · rw [h]; exact h1 e
    · rw [h] at hs; exact absurd rfl hs
  · intro hs
    rcases createLegacyBrotliProtocolHandler_cases env metadata url with ⟨e, h⟩ | ⟨r, m, b, _, _, h⟩
    · rw [h]; exact h2 e
    · rw [h] at hs; exact absurd rfl hs

/-- The request `/file.unknownext` on `tw-library`, a scheme with its own `csp`:
the error response overrides it. -/
theorem C12_error_envelope_witness :
    (sampleMetadata "tw-library").csp = some "default-src \x27none\x27;".toList ∧
    (createModernProtocolHandler sampleEnv (sampleMetadata "tw-library")
      "tw-library://./file.unknownext".toList).headers.get "content-security-policy".toList =
      some "default-src \x27none\x27".toList :=
  ⟨by decide,
   ((C12_error_envelope sampleEnv (sampleMetadata "tw-library")
      "tw-library://./file.unknownext".toList).2.2.1 (by decide)).2.2⟩

theorem mimeTypeOf_eq_some (fileExtension mimeType : Str)
    (h : mimeTypeOf fileExtension = some mimeType) :
    MIME_TYPES.get fileExtension = some mimeType := by
  unfold mimeTypeOf at h
  cases hg : MIME_TYPES.get fileExtension with
  | none => rw [hg] at h; simp [truthyStr] at h
  | some m =>
    rw [hg] at h
    simp only [truthyStr] at h
    split_ifs at h
    exact h

theorem Obj.get_eq_none_of_keys (o : Obj) (key : Str) (h : ∀ kv ∈ o, kv.1 ≠ key) :
    o.get key = none := by
  induction o with
  | nil => rfl
  | cons kv o ih =>
    obtain ⟨k, v⟩ := kv
    have hk : k ≠ key := h (k, v) (by simp)
    simp [Obj.get, hk, ih (fun kv hkv => h kv (by simp [hkv]))]

/-- C13. The table `MIME_TYPES` is exactly the fixed table of 23 entries, every other
extension has no entry, and for every successful response of any of the three
handlers the `content-type` header is the table's type for the resolved file
extension. -/
theorem C13_content_type (env : Env) (metadata : Metadata) (url : Str) :
    MIME_TYPES = mimeTable.map (fun kv => (kv.1.toList, kv.2.toList)) ∧
    (∀ ext : Str, (∀ kv ∈ mimeTable, kv.1.toList ≠ ext) → MIME_TYPES.get ext = none) ∧
    ((createModernProtocolHandler env metadata url).status = 200 →
      ∃ r mimeType, resolveRequest env metadata url = .ok r ∧
        MIME_TYPES.get r.fileExtension = some mimeType ∧
        (createModernProtocolHandler env metadata url).headers.get "content-type".toList =
          some mimeType) ∧
    ((createLegacyBrotliProtocolHandler env metadata url).statusCode = none →
      ∃ r mimeType, resolveRequest env metadata url = .ok r ∧
        MIME_TYPES.get r.fileExtension = some mimeType ∧
        (createLegacyBrotliProtocolHandler env metadata url).headers.get "content-type".toList =
          some mimeType) ∧
    ((createLegacyFileProtocolHandler env metadata url).status = none →
      ∃ r mimeType, resolveRequest env metadata url = .ok r ∧
        MIME_TYPES.get r.fileExtension = some mimeType ∧
        (createLegacyFileProtocolHandler env metadata url).headers.get "content-type".toList =
          some mimeType) := by
  have htable : MIME_TYPES = mimeTable.map (fun kv => (kv.1.toList, kv.2.toList)) := by decide
  refine ⟨htable, ?_, ?_, ?_, ?_⟩
  · intro ext h
    apply Obj.get_eq_none_of_keys
    intro kv hkv
    rw [htable, List.mem_map] at hkv
    obtain ⟨kv', hmem, rfl⟩ := hkv
    exact h kv' hmem
  · intro hs
    rcases createModernProtocolHandler_cases env metadata url with ⟨e, h⟩ | ⟨r, m, b, hr, hm, h⟩
    · rw [h] at hs; simp [createErrorResponse] at hs
    · exact ⟨r, m, hr, mimeTypeOf_eq_some _ _ hm, by rw [h]; exact Obj.get_set_self _ _ _⟩
  · intro hs
    rcases createLegacyBrotliProtocolHandler_cases env metadata url with
      ⟨e, h⟩ | ⟨r, m, b, hr, hm, h⟩
    · rw [h] at hs; simp [returnErrorPage] at hs
    · exact ⟨r, m, hr, mimeTypeOf_eq_some _ _ hm, by rw [h]; exact Obj.get_set_self _ _ _⟩
  · intro hs
    rcases createLegacyFileProtocolHandler_cases env metadata url with ⟨e, h⟩ | ⟨r, m, hr, hm, h⟩
    · rw [h] at hs; simp [returnErrorResponse] at hs
    · exact ⟨r, m, hr, mimeTypeOf_eq_some _ _ hm, by rw [h]; exact Obj.get_set_self _ _ _⟩

/-- The request `/index.html` on `tw-desktop-settings` is served as `text/html`. -/
theorem C13_content_type_witness :
    (createModernProtocolHandler sampleEnv (sampleMetadata "tw-desktop-settings")
      "tw-desktop-settings://./index.html".toList).status = 200 ∧
    ∃ r mimeType, resolveRequest sampleEnv (sampleMetadata "tw-desktop-settings")
        "tw-desktop-settings://./index.html".toList = .ok r ∧
      MIME_TYPES.get r.fileExtension = some mimeType ∧
      (createModernProtocolHandler sampleEnv (sampleMetadata "tw-desktop-settings")
        "tw-desktop-settings://./index.html".toList).headers.get "content-type".toList =
        some mimeType :=
  ⟨by decide,
   (C13_content_type sampleEnv (sampleMetadata "tw-desktop-settings")
      "tw-desktop-settings://./index.html".toList).2.2.1 (by decide)⟩

/-- C16. For every descriptor, `getBaseProtocolHeaders` returns exactly this map:
`x-content-type-options: nosniff`; then `content-security-policy` with the
descriptor's `csp` verbatim when a (non-empty) `csp` is present, and no such key
otherwise; then `x-frame-options: DENY` when the descriptor is not embeddable, and
no such key otherwise. -/
theorem C16_base_headers (metadata : Metadata) :
    getBaseProtocolHeaders metadata =
      [("x-content-type-options".toList, "nosniff".toList)] ++
      (match truthyStr metadata.csp with
        | some csp => [("content-security-policy".toList, csp)]
        | none => []) ++
      (if metadata.embeddable then [] else [("x-frame-options".toList, "DENY".toList)]) ∧
    (∀ csp, metadata.csp = some csp → csp ≠ [] → truthyStr metadata.csp = some csp) ∧
    (metadata.csp = none → truthyStr metadata.csp = none) := by
  refine ⟨?_, ?_, ?_⟩
  · unfold getBaseProtocolHeaders
    cases truthyStr metadata.csp <;> cases metadata.embeddable <;> simp [Obj.set]
  · intro csp h hne
    simp [h, truthyStr, hne]
  · intro h
    simp [h, truthyStr]

/-! ## Existence checks -/

theorem probeCandidate_paths (brotli : Bool) (existsSync : Str → Bool) (candidate : Str) :
    ∀ p ∈ (probeCandidate brotli existsSync candidate).2,
      p = candidate ∨ p = candidate ++ ".br".toList := by
  intro p hp
  unfold probeCandidate at hp
  split_ifs at hp <;> simp at hp <;> tauto

theorem searchCandidates_paths (root : Str) (brotli : Bool) (existsSync : Str → Bool) :
    ∀ (cs : List Str), ∀ p ∈ (searchCandidates root brotli existsSync cs).2, root <+: p := by
  intro cs
  induction cs with
  | nil => intro p hp; simp [searchCandidates] at hp
  | cons c cs ih =>
    intro p hp
    unfold searchCandidates at hp
    simp only at hp
    by_cases hs : startsWith (join root c) root = true
    · have hpre : root <+: join root c := List.isPrefixOf_iff_prefix.mp hs
      have hprobe : ∀ q ∈ (probeCandidate brotli existsSync (join root c)).2, root <+: q := by
        intro q hq
        rcases probeCandidate_paths brotli existsSync (join root c) q hq with h | h
        · rw [h]; exact hpre
        · rw [h]; exact hpre.trans (List.prefix_append _ _)
      simp only [hs, Bool.not_true, Bool.false_eq_true, if_false] at hp
      by_cases hf : (probeCandidate brotli existsSync (join root c)).1 = true
      · simp only [hf, if_true] at hp
        exact hprobe p hp
      · simp only [hf, Bool.false_eq_true, if_false] at hp
        rcases List.mem_append.mp hp with h | h
        · exact hprobe p h
        · exact ih p h
    · simp only [Bool.not_eq_true] at hs
      simp only [hs, Bool.not_false, if_true] at hp
      exact ih p hp

/-- C20. The containment check precedes file-system access: for every descriptor and
request, every path that `resolveRequestPath` gives to `fs.existsSync` (a
candidate or its `.br` file) starts with the root prefix; and a candidate that
normalises to a location outside root is skipped, the loop going on with the next
candidate without any existence check for it. -/
theorem C20_checks_under_root (other : Str → URL → Except JsError Str)
    (existsSync : Str → Bool) (metadata : Metadata) (parsedURL : URL) :
    (∀ p ∈ (resolveRequestPath other existsSync metadata parsedURL).2,
      join metadata.root ['/'] <+: p) ∧
    (∀ (c : Str) (cs : List Str),
      startsWith (join (join metadata.root ['/']) c) (join metadata.root ['/']) = false →
      searchCandidates (join metadata.root ['/']) metadata.brotli existsSync (c :: cs) =
        searchCandidates (join metadata.root ['/']) metadata.brotli existsSync cs) := by
  constructor
  · intro p hp
    unfold resolveRequestPath at hp
    cases hadj : adjustedPathname other metadata parsedURL with
    | error e => rw [hadj] at hp; simp at hp
    | ok pathname =>
      rw [hadj] at hp
      simp only [resolveFrom] at hp
      split_ifs at hp <;> exact searchCandidates_paths _ _ _ _ p hp
  · intro c cs h
    simp [searchCandidates, h]

/-- The existence checks of the request `/static/foo.js` on `tw-editor`: both lie
under the root. -/
theorem C20_checks_under_root_witness :
    (resolveRequestPath sampleEnv.newURLRelative (fun _ => false) (sampleMetadata "tw-editor")
        ⟨"tw-editor:".toList, "/static/foo.js".toList⟩).2 =
      ["/app/dist-renderer-webpack/editor/static/foo.js".toList,
       "/app/dist-renderer-webpack/editor/gui/static/foo.js".toList] ∧
    join (sampleMetadata "tw-editor").root ['/'] <+:
      "/app/dist-renderer-webpack/editor/static/foo.js".toList :=
  ⟨by decide,
   (C20_checks_under_root sampleEnv.newURLRelative (fun _ => false) (sampleMetadata "tw-editor")
      ⟨"tw-editor:".toList, "/static/foo.js".toList⟩).1 _ (by decide)⟩

/-- C19: the code at a failing request.  The URL `not a url` does not parse; the
result the legacy file handler gives to its callback has no `statusCode` (the 400
is in a field `status`, which the declared result type does not have), whereas the
legacy buffer handler sets `statusCode` to 400 on the same request. -/
theorem C19_legacy_file_status :
    (createLegacyFileProtocolHandler sampleEnv (sampleMetadata "tw-desktop-settings")
      "not a url".toList).statusCode = none ∧
    (createLegacyFileProtocolHandler sampleEnv (sampleMetadata "tw-desktop-settings")
      "not a url".toList).status = some 400 ∧
    (createLegacyBrotliProtocolHandler sampleEnv (sampleMetadata "tw-desktop-settings")
      "not a url".toList).statusCode = some 400 ∧
    (createModernProtocolHandler sampleEnv (sampleMetadata "tw-desktop-settings")
      "not a url".toList).status = 400 := by
  decide

/-! ## The modern handler and the legacy handlers -/

/-- A response of the modern handler is the error response, or a success response
whose body was fetched: the stream of the fetched resolved file, or the
decompression of the fetched `.br` file. -/
theorem createModernProtocolHandler_read (env : Env) (metadata : Metadata) (url : Str) :
    (∃ e, createModernProtocolHandler env metadata url = createErrorResponse env metadata url e) ∨
    (∃ r mimeType f, resolveRequest env metadata url = .ok r ∧
      mimeTypeOf r.fileExtension = some mimeType ∧ f.ok = true ∧
      ((env.netFetch r.resolved = .ok f ∧
        createModernProtocolHandler env metadata url =
          { status := 200,
            headers := (getBaseProtocolHeaders metadata).set "content-type".toList mimeType,
            body := .stream f.body }) ∨
       (∃ d, env.netFetch (r.resolved ++ ".br".toList) = .ok f ∧
        env.brotliDecompress f.body = .ok d ∧
        createModernProtocolHandler env metadata url =
          { status := 200,
            headers := (getBaseProtocolHeaders metadata).set "content-type".toList mimeType,
            body := .buffer d }))) := by
  unfold createModernProtocolHandler modernTry
  cases hr : resolveRequest env metadata url with
  | error e => exact Or.inl ⟨e, by simp [bind, Except.bind]⟩
  | ok r =>
    cases hm : mimeTypeOf r.fileExtension with
    | none =>
      exact Or.inl ⟨invalidFileExtension r.fileExtension,
        by simp [bind, Except.bind, hm, pure, Except.pure]⟩
    | some mimeType =>
      simp only [bind, Except.bind, hm]
      by_cases hb : metadata.brotli = true
      · simp only [hb, if_true]
        by_cases hx : env.existsSync (r.resolved ++ ".br".toList) = true
        · simp only [hx, if_true]
          cases hf : env.netFetch (r.resolved ++ ".br".toList) with
          | error e => exact Or.inl ⟨e, by simp⟩
          | ok f =>
            cases hok : f.ok with
            | false =>
              exact Or.inl ⟨fileNotFound (r.resolved ++ ".br".toList),
                by simp [hok, throw, throwThe, MonadExceptOf.throw]⟩
            | true =>
              cases hd : env.brotliDecompress f.body with
              | error e => exact Or.inl ⟨e, by simp [hok, hd, pure, Except.pure]⟩
              | ok d =>
                exact Or.inr ⟨r, mimeType, f, rfl, hm, hok, Or.inr ⟨d, hf, hd,
                  by simp [hok, hd, pure, Except.pure]⟩⟩
        · simp only [hx]
          cases hf : env.netFetch r.resolved with
          | error e => exact Or.inl ⟨e, by simp⟩
          | ok f =>
            cases hok : f.ok with
            | false =>
              exact Or.inl ⟨fileNotFound r.resolved,
                by simp [hok, throw, throwThe, MonadExceptOf.throw]⟩
            | true =>
              exact Or.inr ⟨r, mimeType, f, rfl, hm, hok, Or.inl ⟨hf,
                by simp [hok, pure, Except.pure]⟩⟩
      · simp only [hb]
        cases hf : env.netFetch r.resolved with
        | error e => exact Or.inl ⟨e, by simp⟩
        | ok f =>
          cases hok : f.ok with
          | false =>
            exact Or.inl ⟨fileNotFound r.resolved,
              by simp [hok, throw, throwThe, MonadExceptOf.throw]⟩
          | true =>
            exact Or.inr ⟨r, mimeType, f, rfl, hm, hok, Or.inl ⟨hf,
              by simp [hok, pure, Except.pure]⟩⟩

/-- C15. For every descriptor and every request string the modern handler returns a
response and never rejects: the status-400 error response, or a status-200
response whose body was actually fetched (the stream of the resolved file, or the
decompression of its `.br` file).  A URL that does not parse, a path that escapes
root (or any other failure of the resolution) and a resolved path that cannot be
fetched all give the error response. -/
theorem C15_modern_never_rejects (env : Env) (metadata : Metadata) (url : Str) :
    ((∃ e, createModernProtocolHandler env metadata url = createErrorResponse env metadata url e ∧
        (createModernProtocolHandler env metadata url).status = 400) ∨
      ((createModernProtocolHandler env metadata url).status = 200 ∧
        ∃ r f, resolveRequest env metadata url = .ok r ∧ f.ok = true ∧
          ((env.netFetch r.resolved = .ok f ∧
            (createModernProtocolHandler env metadata url).body = .stream f.body) ∨
           (∃ d, env.netFetch (r.resolved ++ ".br".toList) = .ok f ∧
            env.brotliDecompress f.body = .ok d ∧
            (createModernProtocolHandler env metadata url).body = .buffer d)))) ∧
    (∀ e, env.newURL url = .error e →
      createModernProtocolHandler env metadata url = createErrorResponse env metadata url e) ∧
    (∀ e, resolveRequest env metadata url = .error e →
      createModernProtocolHandler env metadata url = createErrorResponse env metadata url e) ∧
    ((∀ path f, env.netFetch path = .ok f → f.ok = false) →
      (createModernProtocolHandler env metadata url).status = 400) := by
  have hcases := createModernProtocolHandler_read env metadata url
  have hres : ∀ e, resolveRequest env metadata url = .error e →
      createModernProtocolHandler env metadata url = createErrorResponse env metadata url e := by
    intro e he
    simp [createModernProtocolHandler, modernTry, he, bind, Except.bind]
  refine ⟨?_, ?_, hres, ?_⟩
  · rcases hcases with ⟨e, h⟩ | ⟨r, m, f, hr, _, hok, h⟩
    · exact Or.inl ⟨e, h, by rw [h]; rfl⟩
    · right
      rcases h with ⟨hf, h⟩ | ⟨d, hf, hd, h⟩
      · exact ⟨by rw [h], r, f, hr, hok, Or.inl ⟨hf, by rw [h]⟩⟩
      · exact ⟨by rw [h], r, f, hr, hok, Or.inr ⟨d, hf, hd, by rw [h]⟩⟩
  · intro e he
    apply hres
    simp [resolveRequest, he, bind, Except.bind]
  · intro hno
    rcases hcases with ⟨e, h⟩ | ⟨r, m, f, hr, _, hok, h⟩
    · rw [h]; rfl
    · rcases h with ⟨hf, _⟩ | ⟨d, hf, _, _⟩
      · rw [hno _ f hf] at hok; exact absurd hok (by decide)
      · rw [hno _ f hf] at hok; exact absurd hok (by decide)

/-- The request `not a url`, which does not parse, gets the error response. -/
theorem C15_modern_never_rejects_witness :
    sampleEnv.newURL "not a url".toList = .error JsError.invalidURL ∧
    createModernProtocolHandler sampleEnv (sampleMetadata "tw-library") "not a url".toList =
      createErrorResponse sampleEnv (sampleMetadata "tw-library") "not a url".toList
        JsError.invalidURL :=
  ⟨by decide,
   (C15_modern_never_rejects sampleEnv (sampleMetadata "tw-library") "not a url".toList).2.1
     JsError.invalidURL (by decide)⟩

/-- C14 as stated fails: the legacy file handler never reads the file.  For the
request `/missing.html` on `tw-desktop-settings` (not a brotli scheme) on a disk
without files, the modern handler delivers the status-400 error response, the
legacy file handler a success result with the resolved path, and their header
maps differ. -/
theorem C14_counterexample :
    (sampleMetadata "tw-desktop-settings").brotli = false ∧
    (createModernProtocolHandler missingEnv (sampleMetadata "tw-desktop-settings")
      "tw-desktop-settings://./missing.html".toList).status = 400 ∧
    createLegacyFileProtocolHandler missingEnv (sampleMetadata "tw-desktop-settings")
        "tw-desktop-settings://./missing.html".toList =
      { path := "/app/src-renderer/desktop-settings/missing.html".toList,
        status := none, statusCode := none,
        headers := (getBaseProtocolHeaders (sampleMetadata "tw-desktop-settings")).set
          "content-type".toList "text/html".toList } ∧
    (createModernProtocolHandler missingEnv (sampleMetadata "tw-desktop-settings")
      "tw-desktop-settings://./missing.html".toList).headers ≠
    (createLegacyFileProtocolHandler missingEnv (sampleMetadata "tw-desktop-settings")
      "tw-desktop-settings://./missing.html".toList).headers := by
  decide

/-- The legacy buffer handler and the modern handler on a brotli descriptor, when
the resolution succeeded with a supported extension and the two ways of reading
agree: both succeed with the same headers, or both deliver the error page. -/
theorem brotli_handlers_agree (env : Env) (metadata : Metadata) (url : Str) (r : Resolved)
    (mimeType : Str) (hbrotli : metadata.brotli = true) (hfs : FsAgree env)
    (hr : resolveRequest env metadata url = .ok r)
    (hm : mimeTypeOf r.fileExtension = some mimeType) :
    (∃ body data,
      createModernProtocolHandler env metadata url =
        { status := 200,
          headers := (getBaseProtocolHeaders metadata).set "content-type".toList mimeType,
          body := body } ∧
      createLegacyBrotliProtocolHandler env metadata url =
        { data := data, statusCode := none,
          headers := (getBaseProtocolHeaders metadata).set "content-type".toList mimeType }) ∨
    (∃ e e',
      createModernProtocolHandler env metadata url = createErrorResponse env metadata url e ∧
      createLegacyBrotliProtocolHandler env metadata url = returnErrorPage env metadata url e') := by
  have key : ∀ path : Str,
      (∃ bytes, env.readFile path = .ok bytes ∧ env.netFetch path = .ok ⟨true, bytes⟩) ∨
      ((∃ e', env.readFile path = .error e') ∧
        ((∃ e, env.netFetch path = .error e) ∨
          ∃ f, env.netFetch path = .ok f ∧ f.ok = false)) := by
    intro path
    have h := hfs path
    cases hrf : env.readFile path with
    | ok bytes => rw [hrf] at h; exact Or.inl ⟨bytes, rfl, h⟩
    | error e' =>
      rw [hrf] at h
      refine Or.inr ⟨⟨e', rfl⟩, ?_⟩
      cases hnf : env.netFetch path with
      | error e => exact Or.inl ⟨e, rfl⟩
      | ok f => exact Or.inr ⟨f, rfl, h f hnf⟩
  by_cases hx : env.existsSync (r.resolved ++ ['.', 'b', 'r']) = true
  · rcases key (r.resolved ++ ['.', 'b', 'r']) with ⟨bytes, hrf, hnf⟩ | ⟨⟨e', hrf⟩, hnf⟩
    · cases hd : env.brotliDecompress bytes with
      | ok d =>
        exact Or.inl ⟨.buffer d, .buffer d,
          by simp [createModernProtocolHandler, modernTry, hr, hm, hbrotli, hx, hnf, hd, bind,
            Except.bind, pure, Except.pure],
          by simp [createLegacyBrotliProtocolHandler, legacyBrotliTry, hr, hm, hx, hrf, hd, bind,
            Except.bind, pure, Except.pure]⟩
      | error ed =>
        exact Or.inr ⟨ed, ed,
          by simp [createModernProtocolHandler, modernTry, hr, hm, hbrotli, hx, hnf, hd, bind,
            Except.bind, pure, Except.pure],
          by simp [createLegacyBrotliProtocolHandler, legacyBrotliTry, hr, hm, hx, hrf, hd, bind,
            Except.bind, pure, Except.pure]⟩
    · have hl : createLegacyBrotliProtocolHandler env metadata url =
          returnErrorPage env metadata url e' := by
        simp [createLegacyBrotliProtocolHandler, legacyBrotliTry, hr, hm, hx, hrf, bind,
          Except.bind, pure, Except.pure]
      rcases hnf with ⟨e1, hnf⟩ | ⟨f, hnf, hok⟩
      · exact Or.inr ⟨e1, e', by simp [createModernProtocolHandler, modernTry, hr, hm, hbrotli,
          hx, hnf, bind, Except.bind, pure, Except.pure], hl⟩
      · exact Or.inr ⟨fileNotFound (r.resolved ++ ['.', 'b', 'r']), e',
          by simp [createModernProtocolHandler, modernTry, hr, hm, hbrotli, hx, hnf, hok, bind,
            Except.bind, pure, Except.pure, throw, throwThe, MonadExceptOf.throw], hl⟩
  · rcases key r.resolved with ⟨bytes, hrf, hnf⟩ | ⟨⟨e', hrf⟩, hnf⟩
    · exact Or.inl ⟨.stream bytes, .buffer bytes,
        by simp [createModernProtocolHandler, modernTry, hr, hm, hbrotli, hx, hnf, bind,
          Except.bind, pure, Except.pure],
        by simp [createLegacyBrotliProtocolHandler, legacyBrotliTry, hr, hm, hx, hrf, bind,
          Except.bind, pure, Except.pure]⟩
    · have hl : createLegacyBrotliProtocolHandler env metadata url =
          returnErrorPage env metadata url e' := by
        simp [createLegacyBrotliProtocolHandler, legacyBrotliTry, hr, hm, hx, hrf, bind,
          Except.bind, pure, Except.pure]
      rcases hnf with ⟨e1, hnf⟩ | ⟨f, hnf, hok⟩
      · exact Or.inr ⟨e1, e', by simp [createModernProtocolHandler, modernTry, hr, hm, hbrotli,
          hx, hnf, bind, Except.bind, pure, Except.pure], hl⟩
      · exact Or.inr ⟨fileNotFound r.resolved, e',
          by simp [createModernProtocolHandler, modernTry, hr, hm, hbrotli, hx, hnf, hok, bind,
            Except.bind, pure, Except.pure, throw, throwThe, MonadExceptOf.throw], hl⟩

/-- C14, as amended. The three handlers share the resolution, the extension test and
the header logic.  When the resolution fails or the extension is unsupported, all
three deliver their error result, with equal header maps.  Otherwise the legacy
file handler delivers the resolved path, without reading the file, with the
headers of the modern handler's success response; and on a brotli descriptor,
when `readFile` and `net.fetch` agree on the files, the legacy buffer handler and
the modern handler either both succeed or both deliver the error page, with equal
header maps in each case. -/
theorem C14_handlers_agree (env : Env) (metadata : Metadata) (url : Str) :
    ((∀ r, resolveRequest env metadata url = .ok r → mimeTypeOf r.fileExtension = none) →
      (∃ e, createModernProtocolHandler env metadata url =
        createErrorResponse env metadata url e) ∧
      (∃ e, createLegacyBrotliProtocolHandler env metadata url =
        returnErrorPage env metadata url e) ∧
      (∃ errorPage, createLegacyFileProtocolHandler env metadata url =
        returnErrorResponse env metadata errorPage) ∧
      (createModernProtocolHandler env metadata url).headers =
        (createLegacyBrotliProtocolHandler env metadata url).headers ∧
      (createModernProtocolHandler env metadata url).headers =
        (createLegacyFileProtocolHandler env metadata url).headers) ∧
    (∀ r mimeType, resolveRequest env metadata url = .ok r →
      mimeTypeOf r.fileExtension = some mimeType →
      createLegacyFileProtocolHandler env metadata url =
        { path := r.resolved, status := none, statusCode := none,
          headers := (getBaseProtocolHeaders metadata).set "content-type".toList mimeType } ∧
      ((createModernProtocolHandler env metadata url).status = 200 →
        (createModernProtocolHandler env metadata url).headers =
          (createLegacyFileProtocolHandler env metadata url).headers)) ∧
    (metadata.brotli = true → FsAgree env →
      (((createModernProtocolHandler env metadata url).status = 200 ∧
          (createLegacyBrotliProtocolHandler env metadata url).statusCode = none) ∨
        ((createModernProtocolHandler env metadata url).status = 400 ∧
          (createLegacyBrotliProtocolHandler env metadata url).statusCode = some 400)) ∧
      (createModernProtocolHandler env metadata url).headers =
        (createLegacyBrotliProtocolHandler env metadata url).headers) := by
  have hfail : (∀ r, resolveRequest env metadata url = .ok r → mimeTypeOf r.fileExtension = none) →
      (∃ e, createModernProtocolHandler env metadata url =
        createErrorResponse env metadata url e) ∧
      (∃ e, createLegacyBrotliProtocolHandler env metadata url =
        returnErrorPage env metadata url e) ∧
      (∃ errorPage, createLegacyFileProtocolHandler env metadata url =
        returnErrorResponse env metadata errorPage) := by
    intro h
    cases hr : resolveRequest env metadata url with
    | error e =>
      exact ⟨⟨e, by simp [createModernProtocolHandler, modernTry, hr, bind, Except.bind]⟩,
        ⟨e, by simp [createLegacyBrotliProtocolHandler, legacyBrotliTry, hr, bind, Except.bind]⟩,
        ⟨"unknown".toList, by simp [createLegacyFileProtocolHandler, hr]⟩⟩
    | ok r =>
      have hm := h r hr
      exact ⟨⟨invalidFileExtension r.fileExtension,
          by simp [createModernProtocolHandler, modernTry, hr, hm, bind, Except.bind, pure,
            Except.pure]⟩,
        ⟨invalidFileExtension r.fileExtension,
          by simp [createLegacyBrotliProtocolHandler, legacyBrotliTry, hr, hm, bind, Except.bind,
            pure, Except.pure]⟩,
        ⟨"invalid-extension".toList, by simp [createLegacyFileProtocolHandler, hr, hm]⟩⟩
  refine ⟨?_, ?_, ?_⟩
  · intro h
    obtain ⟨⟨e1, h1⟩, ⟨e2, h2⟩, ⟨pg, h3⟩⟩ := hfail h
    exact ⟨⟨e1, h1⟩, ⟨e2, h2⟩, ⟨pg, h3⟩, by rw [h1, h2]; rfl, by rw [h1, h3]; rfl⟩
  · intro r mimeType hr hm
    have hfile : createLegacyFileProtocolHandler env metadata url =
        { path := r.resolved, status := none, statusCode := none,
          headers := (getBaseProtocolHeaders metadata).set "content-type".toList mimeType } := by
      simp [createLegacyFileProtocolHandler, hr, hm]
    refine ⟨hfile, ?_⟩
    intro hs
    rcases createModernProtocolHandler_cases env metadata url with ⟨e, h⟩ | ⟨r', m', b, hr', hm', h⟩
    · rw [h] at hs; simp [createErrorResponse] at hs
    · rw [hr] at hr'
      cases hr'
      rw [hm] at hm'
      cases hm'
      rw [h, hfile]
  · intro hbrotli hfs
    have hboth : (∃ body data m,
        createModernProtocolHandler env metadata url =
          { status := 200,
            headers := (getBaseProtocolHeaders metadata).set "content-type".toList m,
            body := body } ∧
        createLegacyBrotliProtocolHandler env metadata url =
          { data := data, statusCode := none,
            headers := (getBaseProtocolHeaders metadata).set "content-type".toList m }) ∨
        (∃ e e',
          createModernProtocolHandler env metadata url = createErrorResponse env metadata url e ∧
          createLegacyBrotliProtocolHandler env metadata url =
            returnErrorPage env metadata url e') := by
      by_cases hall : ∀ r, resolveRequest env metadata url = .ok r →
          mimeTypeOf r.fileExtension = none
      · obtain ⟨⟨e1, h1⟩, ⟨e2, h2⟩, _⟩ := hfail hall
        exact Or.inr ⟨e1, e2, h1, h2⟩
      · simp only [not_forall] at hall
        obtain ⟨r, hr, hm⟩ := hall
        obtain ⟨m, hm⟩ := Option.ne_none_iff_exists'.mp hm
        rcases brotli_handlers_agree env metadata url r m hbrotli hfs hr hm with
          ⟨b, d, h1, h2⟩ | h
        · exact Or.inl ⟨b, d, m, h1, h2⟩
        · exact Or.inr h
    rcases hboth with ⟨b, d, m, h1, h2⟩ | ⟨e, e', h1, h2⟩
    · exact ⟨Or.inl ⟨by rw [h1], by rw [h2]⟩, by rw [h1, h2]⟩
    · exact ⟨Or.inr ⟨by rw [h1]; rfl, by rw [h2]; rfl⟩, by rw [h1, h2]; rfl⟩

theorem FsAgree_sidecarEnv : FsAgree sidecarEnv := by
  intro path
  show match (if ".br".toList.reverse.isPrefixOf path.reverse then Except.ok [7, 8]
      else Except.error (fileNotFound path) : Except JsError Bytes) with
    | .ok bytes => (if ".br".toList.reverse.isPrefixOf path.reverse then
        Except.ok (⟨true, [7, 8]⟩ : FetchResult) else Except.error (fileNotFound path)) =
        .ok ⟨true, bytes⟩
    | .error _ => ∀ f : FetchResult, (if ".br".toList.reverse.isPrefixOf path.reverse then
        Except.ok (⟨true, [7, 8]⟩ : FetchResult) else Except.error (fileNotFound path)) =
        .ok f → f.ok = false
  by_cases h : ".br".toList.reverse.isPrefixOf path.reverse = true
  · rw [if_pos h, if_pos h]
  · rw [if_neg h, if_neg h]
    intro f hf
    cases hf

/-- The request `/a/sound.wav` on the brotli scheme `tw-library`: both handlers
succeed, with equal headers. -/
theorem C14_handlers_agree_witness :
    (((createModernProtocolHandler sidecarEnv (sampleMetadata "tw-library")
          "tw-library://./a/sound.wav".toList).status = 200 ∧
        (createLegacyBrotliProtocolHandler sidecarEnv (sampleMetadata "tw-library")
          "tw-library://./a/sound.wav".toList).statusCode = none) ∨
      ((createModernProtocolHandler sidecarEnv (sampleMetadata "tw-library")
          "tw-library://./a/sound.wav".toList).status = 400 ∧
        (createLegacyBrotliProtocolHandler sidecarEnv (sampleMetadata "tw-library")
          "tw-library://./a/sound.wav".toList).statusCode = some 400)) ∧
    (createModernProtocolHandler sidecarEnv (sampleMetadata "tw-library")
      "tw-library://./a/sound.wav".toList).headers =
    (createLegacyBrotliProtocolHandler sidecarEnv (sampleMetadata "tw-library")
      "tw-library://./a/sound.wav".toList).headers :=
  (C14_handlers_agree sidecarEnv (sampleMetadata "tw-library")
    "tw-library://./a/sound.wav".toList).2.2 (by decide) FsAgree_sidecarEnv

/-! ## The extension mirror and the update checker -/

/-- C17. For every input, `normalizeRelativePath` throws `Invalid relative path` if
and only if, after stripping leading slashes and turning backslashes into `/`,
the path has no non-empty segment or has some segment equal to `..`; otherwise it
returns the non-empty segments joined by `/`. -/
theorem C17_normalizeRelativePath (relativePath : Str) :
    (normalizeRelativePath relativePath =
        .error (JsError.mk_error ("Invalid relative path: ".toList ++ relativePath)) ↔
      (∀ seg ∈ splitSlash (backslashesToSlashes (stripLeadingSlashes relativePath)), seg = []) ∨
      ['.', '.'] ∈ splitSlash (backslashesToSlashes (stripLeadingSlashes relativePath))) ∧
    (¬ ((∀ seg ∈ splitSlash (backslashesToSlashes (stripLeadingSlashes relativePath)), seg = []) ∨
        ['.', '.'] ∈ splitSlash (backslashesToSlashes (stripLeadingSlashes relativePath))) →
      normalizeRelativePath relativePath =
        .ok (joinSlash ((splitSlash (backslashesToSlashes
          (stripLeadingSlashes relativePath))).filter (fun part => part != [])))) := by
  have hcond : (nonEmptyParts (backslashesToSlashes (stripLeadingSlashes relativePath))).length = 0 ∨
      (nonEmptyParts (backslashesToSlashes (stripLeadingSlashes relativePath))).any
        (fun i => i == ['.', '.']) = true ↔
      (∀ seg ∈ splitSlash (backslashesToSlashes (stripLeadingSlashes relativePath)), seg = []) ∨
      ['.', '.'] ∈ splitSlash (backslashesToSlashes (stripLeadingSlashes relativePath)) := by
    unfold nonEmptyParts
    simp only [List.length_eq_zero, List.filter_eq_nil_iff, bne_iff_ne, ne_eq, not_not,
      List.any_eq_true, List.mem_filter, beq_iff_eq]
    constructor
    · rintro (h | ⟨x, ⟨hx, _⟩, rfl⟩)
      · exact Or.inl h
      · exact Or.inr hx
    · rintro (h | h)
      · exact Or.inl h
      · exact Or.inr ⟨_, ⟨h, by decide⟩, rfl⟩
  unfold normalizeRelativePath
  simp only
  constructor
  · constructor
    · intro h
      by_contra hn
      rw [if_neg (fun hc => hn (hcond.mp hc))] at h
      cases h
    · intro h
      rw [if_pos (hcond.mpr h)]
  · intro hn
    rw [if_neg (fun hc => hn (hcond.mp hc))]
    rfl

/-- C18. Security updates cannot be ignored: whenever the update checker is allowed,
the setting is not `never`, the manifest was fetched and its `oldest_safe` is a
valid version greater than the current version, `checkForUpdates` announces an
update with the security flag set, for every value of `settings.ignoredUpdate`
and `settings.ignoredUpdateUntil`, also those that `ignoreUpdate` writes when the
user dismisses the update, and for every other setting of the update checker
(`stable`, `unstable`, `security`). -/
theorem C18_security_update (semver : Semver) (settings : Settings) (currentVersion : Str)
    (json : VersionInfoJson) (now : Int) (oldestSafe : Str)
    (hsetting : settings.updateChecker ≠ "never".toList)
    (hvalid : semver.valid json.oldest_safe = some oldestSafe) (hne : oldestSafe ≠ [])
    (hlt : semver.lt currentVersion oldestSafe = .ok true) :
    checkForUpdates semver true settings currentVersion (.ok json) now =
      .ok (some ⟨currentVersion, orVersion (semver.valid json.latest) currentVersion, true⟩) ∧
    (∀ (ignoredUpdate : Option Str) (ignoredUpdateUntil : Int) (later : Int),
      checkForUpdates semver true
        { settings with ignoredUpdate := ignoredUpdate, ignoredUpdateUntil := ignoredUpdateUntil }
        currentVersion (.ok json) later =
      .ok (some ⟨currentVersion, orVersion (semver.valid json.latest) currentVersion, true⟩)) ∧
    (∀ (permanently : Bool) (year3000 later : Int),
      checkForUpdates semver true
        (ignoreUpdate settings (orVersion (semver.valid json.latest) currentVersion)
          (ignoreUntil true permanently now year3000))
        currentVersion (.ok json) later =
      .ok (some ⟨currentVersion, orVersion (semver.valid json.latest) currentVersion, true⟩)) := by
  have hor : orVersion (semver.valid json.oldest_safe) currentVersion = oldestSafe := by
    simp [orVersion, hvalid, truthyStr, hne]
  have key : ∀ (s : Settings) (t : Int), s.updateChecker = settings.updateChecker →
      checkForUpdates semver true s currentVersion (.ok json) t =
        .ok (some ⟨currentVersion, orVersion (semver.valid json.latest) currentVersion, true⟩) := by
    intro s t hs
    have hn : ¬ s.updateChecker = ['n', 'e', 'v', 'e', 'r'] := by
      rw [hs]
      exact hsetting
    unfold checkForUpdates
    simp [hn, hor, hlt, bind, Except.bind, pure, Except.pure]
  exact ⟨key settings now rfl, fun iu iuu later => key _ later rfl,
    fun perm y later => key _ later rfl⟩

/-- With `oldest_safe` 1.10.0 and current version 1.9.0 the update is announced as
a security update, although the same update was ignored until far in the future. -/
theorem C18_security_update_witness :
    checkForUpdates sampleSemver true ⟨"stable".toList, some "1.10.0".toList, 99999999999⟩
        "1.9.0".toList
        (.ok ⟨some "1.10.0".toList, some "1.10.0".toList, some "1.10.0".toList⟩) 5 =
      .ok (some ⟨"1.9.0".toList, "1.10.0".toList, true⟩) :=
  (C18_security_update sampleSemver ⟨"stable".toList, some "1.10.0".toList, 99999999999⟩
    "1.9.0".toList ⟨some "1.10.0".toList, some "1.10.0".toList, some "1.10.0".toList⟩ 5
    "1.10.0".toList (by decide) rfl (by decide) rfl).1

/-! ## Independence of the file system -/

theorem candidatePathnames_single (scheme pathname : Str)
    (h : scheme ≠ "tw-editor".toList ∨
      (startsWith pathname "/static/".toList = false ∧
        startsWith pathname "/extension-editor/".toList = false)) :
    candidatePathnames scheme pathname = [pathname] := by
  unfold candidatePathnames
  rw [if_neg]
  rintro ⟨hs, hp⟩
  rcases h with h | ⟨h1, h2⟩
  · exact h hs
  · rcases hp with hp | hp
    · rw [h1] at hp; exact Bool.noConfusion hp
    · rw [h2] at hp; exact Bool.noConfusion hp

/-- C21. For every request that yields a single candidate (the scheme is not
`tw-editor`, or the pathname the candidates are made of begins with neither
`/static/` nor `/extension-editor/`), the result of `resolveRequestPath` is the
same for every two states of the file system: the existence checks, on a brotli
scheme or not, change neither the path and extension returned nor whether the
call throws.  The result is the joined candidate if it lies under the root
prefix and `Path traversal blocked` otherwise (or the error of the
directory-index step).  For a descriptor without directory index and default
extension, as that of `tw-editor`, the pathname of the candidates is the
request's pathname. -/
theorem C21_single_candidate_fs_independent (other : Str → URL → Except JsError Str)
    (metadata : Metadata) (parsedURL : URL) (existsSync₁ existsSync₂ : Str → Bool)
    (hsingle : schemeOf parsedURL ≠ "tw-editor".toList ∨
      ∀ pathname, adjustedPathname other metadata parsedURL = .ok pathname →
        startsWith pathname "/static/".toList = false ∧
        startsWith pathname "/extension-editor/".toList = false) :
    (resolveRequestPath other existsSync₁ metadata parsedURL).1 =
      (resolveRequestPath other existsSync₂ metadata parsedURL).1 ∧
    (resolveRequestPath other existsSync₁ metadata parsedURL).1 =
      (match adjustedPathname other metadata parsedURL with
        | .error e => .error e
        | .ok pathname =>
          if startsWith (join (join metadata.root ['/']) pathname)
              (join metadata.root ['/']) = true
          then .ok { scheme := schemeOf parsedURL,
                     resolved := join (join metadata.root ['/']) pathname,
                     fileExtension := extname (join (join metadata.root ['/']) pathname) }
          else .error pathTraversalBlocked) ∧
    (metadata.directoryIndex = none → metadata.defaultExtension = none →
      adjustedPathname other metadata parsedURL = .ok parsedURL.pathname) := by
  have key : ∀ existsSync : Str → Bool,
      (resolveRequestPath other existsSync metadata parsedURL).1 =
      (match adjustedPathname other metadata parsedURL with
        | .error e => .error e
        | .ok pathname =>
          if startsWith (join (join metadata.root ['/']) pathname)
              (join metadata.root ['/']) = true
          then .ok { scheme := schemeOf parsedURL,
                     resolved := join (join metadata.root ['/']) pathname,
                     fileExtension := extname (join (join metadata.root ['/']) pathname) }
          else .error pathTraversalBlocked) := by
    intro existsSync
    unfold resolveRequestPath
    cases hadj : adjustedPathname other metadata parsedURL with
    | error e => rfl
    | ok pathname =>
      have hc : candidatePathnames (schemeOf parsedURL) pathname = [pathname] :=
        candidatePathnames_single _ _ (hsingle.imp id (fun h => h pathname hadj))
      exact resolveFrom_single metadata existsSync (schemeOf parsedURL) pathname hc
  refine ⟨(key existsSync₁).trans (key existsSync₂).symm, key existsSync₁, ?_⟩
  intro hi he
  simp [adjustedPathname, indexedPathname, withDefaultExtension, hi, he, truthyStr, Except.map]

/-- The request `/a/sound.wav` on the brotli scheme `tw-library` resolves alike on
a disk where every file exists and on one where none does. -/
theorem C21_single_candidate_fs_independent_witness :
    (resolveRequestPath sampleEnv.newURLRelative (fun _ => true) (sampleMetadata "tw-library")
        ⟨"tw-library:".toList, "/a/sound.wav".toList⟩).1 =
    (resolveRequestPath sampleEnv.newURLRelative (fun _ => false) (sampleMetadata "tw-library")
        ⟨"tw-library:".toList, "/a/sound.wav".toList⟩).1 :=
  (C21_single_candidate_fs_independent sampleEnv.newURLRelative (sampleMetadata "tw-library")
    ⟨"tw-library:".toList, "/a/sound.wav".toList⟩ (fun _ => true) (fun _ => false)
    (Or.inl (by decide))).1

/-! ## The writes of the extension mirror -/

/-- Normalising a root followed by a path without `..` segment keeps every segment
of the root: the result is the root's segments, then the path's kept segments. -/
theorem normalizeSegments_append_noDotDot (root p : Str) (allow : Bool)
    (hp : ∀ s ∈ splitSlash p, s ≠ ['.', '.']) :
    normalizeSegments (root ++ '/' :: p) allow =
      normalizeSegments root allow ++ keptSegments (splitSlash p) := by
  unfold normalizeSegments
  rw [splitSlash_append_slash, List.foldl_append, foldl_normalizeStep_noDotDot allow _ _ hp]
  simp

/-- The segments of a string followed by text without `/`: the text goes to the
last segment. -/
theorem splitSlash_append_of_not_mem (a b : Str) (hb : '/' ∉ b) :
    ∃ init last, splitSlash a = init ++ [last] ∧ splitSlash (a ++ b) = init ++ [last ++ b] := by
  induction a with
  | nil => exact ⟨[], [], rfl, by simpa using splitSlash_of_not_mem b hb⟩
  | cons c a ih =>
    obtain ⟨init, last, h1, h2⟩ := ih
    by_cases hc : c = '/'
    · exact ⟨[] :: init, last, by simp [splitSlash, hc, h1], by simp [splitSlash, hc, h2]⟩
    · cases init with
      | nil =>
        exact ⟨[], c :: last, by simp [splitSlash, hc, h1], by simp [splitSlash, hc, h2]⟩
      | cons s ss =>
        exact ⟨(c :: s) :: ss, last, by simp [splitSlash, hc, h1], by simp [splitSlash, hc, h2]⟩

/-- A path accepted by `normalizeRelativePath` is not empty, does not end in `/`,
and each of its segments is neither empty nor `..`. -/
theorem normalizeRelativePath_ok (relativePath n : Str)
    (h : normalizeRelativePath relativePath = .ok n) :
    n ≠ [] ∧ n.getLast? ≠ some '/' ∧ ∀ s ∈ splitSlash n, s ≠ [] ∧ s ≠ ['.', '.'] := by
  unfold normalizeRelativePath at h
  simp only at h
  split_ifs at h with hc
  simp only [not_or, List.length_eq_zero, Bool.not_eq_true] at hc
  obtain ⟨hne, hany⟩ := hc
  have hn : n = joinSlash (nonEmptyParts (backslashesToSlashes
      (stripLeadingSlashes relativePath))) := by
    cases h
    rfl
  have hparts : ∀ s ∈ nonEmptyParts (backslashesToSlashes (stripLeadingSlashes relativePath)),
      s ≠ [] ∧ s ≠ ['.', '.'] ∧ '/' ∉ s := by
    intro s hs
    have hs' := hs
    unfold nonEmptyParts at hs'
    simp only [List.mem_filter, bne_iff_ne, ne_eq] at hs'
    refine ⟨hs'.2, ?_, splitSlash_no_slash _ s hs'.1⟩
    intro hdd
    have : (nonEmptyParts (backslashesToSlashes (stripLeadingSlashes relativePath))).any
        (fun i => i == ['.', '.']) = true := by
      rw [List.any_eq_true]
      exact ⟨s, hs, by rw [hdd]; rfl⟩
    rw [hany] at this
    exact Bool.noConfusion this
  have hsplit : splitSlash n = nonEmptyParts (backslashesToSlashes
      (stripLeadingSlashes relativePath)) := by
    rw [hn]
    exact splitSlash_joinSlash _ hne (fun s hs => (hparts s hs).2.2)
  have hseg : ∀ s ∈ splitSlash n, s ≠ [] ∧ s ≠ ['.', '.'] := by
    intro s hs
    rw [hsplit] at hs
    exact ⟨(hparts s hs).1, (hparts s hs).2.1⟩
  refine ⟨?_, ?_, hseg⟩
  · rw [hn]
    exact joinSlash_ne_nil _ hne (fun s hs => (hparts s hs).1)
  · intro hl
    obtain ⟨ys, hys⟩ := List.getLast?_eq_some_iff.mp hl
    have : ([] : Str) ∈ splitSlash n := by
      rw [hys, show ys ++ ['/'] = ys ++ '/' :: [] by rfl, splitSlash_append_slash]
      simp [splitSlash]
    exact (hseg [] this).1 rfl

/-- An accepted path followed by `.br`: again without `..` segment, and with a kept
segment. -/
theorem normalizeRelativePath_ok_br (relativePath n : Str)
    (h : normalizeRelativePath relativePath = .ok n) :
    (n ++ ".br".toList).getLast? ≠ some '/' ∧
    (∀ s ∈ splitSlash (n ++ ".br".toList), s ≠ ['.', '.']) ∧
    keptSegments (splitSlash (n ++ ".br".toList)) ≠ [] := by
  obtain ⟨_, _, hseg⟩ := normalizeRelativePath_ok relativePath n h
  obtain ⟨init, last, h1, h2⟩ := splitSlash_append_of_not_mem n ".br".toList (by decide)
  have hlast : last ++ ".br".toList ≠ ['.', '.'] ∧ last ++ ".br".toList ≠ [] ∧
      last ++ ".br".toList ≠ ['.'] := by
    refine ⟨?_, ?_, ?_⟩ <;>
    · intro e
      have := congrArg List.length e
      simp at this
  refine ⟨?_, ?_, ?_⟩
  · rw [show n ++ ".br".toList = (n ++ ['.', 'b']) ++ ['r'] by simp]
    rw [List.getLast?_append_of_ne_nil _ (by simp)]
    decide
  · intro s hs
    rw [h2] at hs
    simp only [List.mem_append, List.mem_singleton] at hs
    rcases hs with hs | hs
    · exact (hseg s (by rw [h1]; simp [hs])).2
    · rw [hs]; exact hlast.1
  · have : last ++ ".br".toList ∈ keptSegments (splitSlash (n ++ ".br".toList)) := by
      unfold keptSegments
      rw [h2]
      simp only [List.mem_filter, List.mem_append, List.mem_singleton, or_true, true_and,
        Bool.and_eq_true, bne_iff_ne, ne_eq]
      exact ⟨hlast.2.1, hlast.2.2⟩
    exact List.ne_nil_of_mem this

/-- A path without `..` segment, joined to an absolute root, lies under the root;
strictly so when it has a kept segment. -/
theorem liesUnder_join (root p : Str) (habs : root.head? = some '/') (hpne : p ≠ [])
    (hlast : p.getLast? ≠ some '/') (hp : ∀ s ∈ splitSlash p, s ≠ ['.', '.']) :
    liesUnder root (join root p) ∧
    (keptSegments (splitSlash p) ≠ [] → join root ['/'] <+: join root p) := by
  have hP := join_root_slash root habs
  have hclean := normalizeSegments_clean root
  have hsegs := normalizeSegments_append_noDotDot root p false hp
  obtain ⟨tl, rfl⟩ : ∃ tl, root = '/' :: tl := by
    cases root with
    | nil => simp at habs
    | cons c tl => simp at habs; exact ⟨tl, by rw [habs]⟩
  have hkne : ∀ s ∈ keptSegments (splitSlash p), s ≠ [] := by
    intro s hs
    unfold keptSegments at hs
    simp at hs
    exact hs.2.1
  have hl : ('/' :: (tl ++ '/' :: p)).getLast? = p.getLast? := by
    rw [show '/' :: (tl ++ '/' :: p) = ('/' :: tl ++ ['/']) ++ p by simp]
    exact List.getLast?_append_of_ne_nil _ hpne
  have hl' : (p.getLast? == some '/') = false := by simpa using hlast
  have hjoin : join ('/' :: tl) p =
      if joinSlash (normalizeSegments ('/' :: tl) false ++ keptSegments (splitSlash p)) = []
      then ['/']
      else '/' :: joinSlash (normalizeSegments ('/' :: tl) false ++
        keptSegments (splitSlash p)) := by
    unfold join
    simp only [List.cons_ne_nil, if_false, hpne, List.cons_append]
    unfold normalize normalizeString
    simp only [List.cons_append] at hsegs
    simp only [List.cons_ne_nil, if_false, List.head?_cons, beq_self_eq_true, Bool.not_true,
      hsegs, hl, hl', if_true, Bool.false_eq_true]
  by_cases hK : keptSegments (splitSlash p) = []
  · refine ⟨?_, fun h => absurd hK h⟩
    rw [hjoin, hK, List.append_nil]
    unfold liesUnder
    rw [hP]
    by_cases hR : normalizeSegments ('/' :: tl) false = []
    · left
      simp [hR, joinSlash, dirString]
    · right
      have hj := joinSlash_ne_nil _ hR (fun s hs => (hclean s hs).1)
      rw [if_neg hj, dirString_eq_joinSlash _ hR]
      simp
  · have hne : joinSlash (normalizeSegments ('/' :: tl) false ++ keptSegments (splitSlash p)) ≠
        [] := by
      rw [joinSlash_append_of_ne_nil _ _ hK]
      simp [joinSlash_ne_nil _ hK hkne]
    have hpre : join ('/' :: tl) ['/'] <+: join ('/' :: tl) p := by
      rw [hjoin, if_neg hne, hP, joinSlash_append_of_ne_nil _ _ hK]
      exact ⟨joinSlash (keptSegments (splitSlash p)), by simp⟩
    exact ⟨Or.inl hpre, fun _ => hpre⟩

/-- C22. For every output root and every relative path, `writeCompressed` and
`writeRaw` either fail in `normalizeRelativePath`, before any call that creates a
directory or a file, or write to root joined with the accepted path (plus `.br`
for `writeCompressed`), and that join does not escape root: normalising it keeps
every segment of the root and adds the segments of the path; for an absolute
root the written path of `writeCompressed` starts with the root prefix, and that
of `writeRaw` starts with it or, when the path has `.` segments only, is the root
directory itself. -/
theorem C22_writes_inside_root (brotliCompress : Bytes → Except JsError Bytes)
    (root relativePath : Str) (data : Bytes) :
    (∀ e, normalizeRelativePath relativePath = .error e →
      writeCompressed brotliCompress root relativePath data = ([], .error e) ∧
      writeRaw root relativePath data = ([], .error e)) ∧
    (∀ n, normalizeRelativePath relativePath = .ok n →
      (writeRaw root relativePath data).1 =
        [.mkdir (dirname (join root n)), .writeFile (join root n) data] ∧
      (∀ a ∈ (writeCompressed brotliCompress root relativePath data).1,
        a = .mkdir (dirname (join root (n ++ ".br".toList))) ∨
        ∃ compressed, a = .writeFile (join root (n ++ ".br".toList)) compressed) ∧
      (∀ allow, normalizeSegments (root ++ '/' :: n) allow =
        normalizeSegments root allow ++ keptSegments (splitSlash n)) ∧
      (∀ allow, normalizeSegments (root ++ '/' :: (n ++ ".br".toList)) allow =
        normalizeSegments root allow ++ keptSegments (splitSlash (n ++ ".br".toList))) ∧
      (root.head? = some '/' →
        liesUnder root (join root n) ∧
        (keptSegments (splitSlash n) ≠ [] → join root ['/'] <+: join root n) ∧
        join root ['/'] <+: join root (n ++ ".br".toList))) := by
  constructor
  · intro e he
    simp [writeCompressed, writeRaw, he]
  · intro n hn
    obtain ⟨hne, hlast, hseg⟩ := normalizeRelativePath_ok relativePath n hn
    obtain ⟨hlastb, hsegb, hkb⟩ := normalizeRelativePath_ok_br relativePath n hn
    refine ⟨by simp [writeRaw, hn], ?_, ?_, ?_, ?_⟩
    · intro a ha
      unfold writeCompressed at ha
      rw [hn] at ha
      simp only at ha
      cases hc : brotliCompress data with
      | error e =>
        rw [hc] at ha
        simp only [List.mem_singleton] at ha
        exact Or.inl ha
      | ok compressed =>
        rw [hc] at ha
        simp only [List.mem_cons, List.mem_singleton, List.not_mem_nil, or_false] at ha
        rcases ha with ha | ha
        · exact Or.inl ha
        · exact Or.inr ⟨compressed, ha⟩
    · intro allow
      exact normalizeSegments_append_noDotDot root n allow (fun s hs => (hseg s hs).2)
    · intro allow
      exact normalizeSegments_append_noDotDot root _ allow hsegb
    · intro habs
      obtain ⟨h1, h2⟩ := liesUnder_join root n habs hne hlast (fun s hs => (hseg s hs).2)
      obtain ⟨_, h3⟩ := liesUnder_join root (n ++ ".br".toList) habs (by simp) hlastb hsegb
      exact ⟨h1, h2, h3 hkb⟩

/-- The writes of `widgets/a.js` under the root `/out/dist-extensions/`, and the
refusal of `widgets/../../a.js`. -/
theorem C22_writes_inside_root_witness :
    (writeRaw "/out/dist-extensions/".toList "widgets/a.js".toList [1]).1 =
      [.mkdir "/out/dist-extensions/widgets".toList,
       .writeFile "/out/dist-extensions/widgets/a.js".toList [1]] ∧
    (writeCompressed (fun b => .ok b) "/out/dist-extensions/".toList "widgets/a.js".toList [1]).1 =
      [.mkdir "/out/dist-extensions/widgets".toList,
       .writeFile "/out/dist-extensions/widgets/a.js.br".toList [1]] ∧
    (writeRaw "/out/dist-extensions/".toList "widgets/../../a.js".toList [1]).1 = [] ∧
    join "/out/dist-extensions/".toList ['/'] <+:
      join "/out/dist-extensions/".toList ("widgets/a.js".toList ++ ".br".toList) :=
  ⟨by decide, by decide, by decide,
   (((C22_writes_inside_root (fun b => .ok b) "/out/dist-extensions/".toList
      "widgets/a.js".toList [1]).2 "widgets/a.js".toList (by decide)).2.2.2.2 (by decide)).2.2⟩

end Protocols
